import Mathlib

/-!
# Transparent price cache (`cache.go`)

A shallow embedding of the read-through price cache of `cache.go` and the
properties of its single-item path `GetPriceFor` and of its concurrent batch
path `GetPricesFor`.

Modelling conventions.

* A `float64` price is only stored, copied and returned by the cache, never
  computed with; it is represented by an integer payload whose zero value is `0`.
* A `time.Time` is the instant in nanoseconds, a `time.Duration` a number of
  nanoseconds; `Sub` is `time.Time.Sub`, which saturates at the bounds of
  `Duration`.
* A Go `error` is represented by its message; the `nil` error is `none`.
* The environment is explicit: `World` holds the successive readings of
  `time.Now()` and the log of the calls made to the wrapped price service.  The
  answer of the service may depend on the calls it has received before.  For
  each call the world also records how many readings of the clock preceded it;
  the code never reads this record, which only serves to say when a call was made.
* `GetPricesFor` starts one goroutine per item code; its executions are the
  interleavings of the steps of these goroutines, chosen by a schedule.  A step
  is one access to what the goroutines share and takes effect at once: the
  schedules are the executions in which the accesses do not overlap in time.
  Nothing in the code orders the accesses of two goroutines (the mutex of
  line 50 is local to the call, `err` is not guarded), so other executions
  exist, which the schedules do not describe: the Go runtime may abort the
  process when accesses to the map overlap, and the two words of `err` may be
  written by different goroutines.  The schedules thus describe calls that
  return; `returnsUnder` says that a schedule is a whole execution, and `stepW`
  refines the assignment of line 81 to its two words.
-/

namespace Sample1

/-! ## Data model -/

/-- The payload of a `float64` price. -/
abbrev Price := Int

/-- An instant (`time.Time`), in nanoseconds. -/
abbrev Time := Int

/-- A `time.Duration`, in nanoseconds. -/
abbrev Duration := Int

/-- Go `error` value, identified by the message its `Error()` method returns. -/
structure GoError where
  msg : String
deriving DecidableEq, Repr

/-- Largest `time.Duration`, `1<<63 - 1`. -/
def maxDuration : Duration := 9223372036854775807

/-- Smallest `time.Duration`, `-1 << 63`. -/
def minDuration : Duration := -9223372036854775808

/-- The duration `t.Sub(u)` of the `time` package: `t - u`, replaced by the largest
(smallest) duration when it exceeds it. -/
def Sub (t u : Time) : Duration :=
  if maxDuration < t - u then maxDuration
  else if t - u < minDuration then minDuration
  else t - u

/-- The struct `CachedPrice`. -/
structure CachedPrice where
  time : Time
  price : Price
deriving DecidableEq, Repr

/-- One call received by the price service: the item code asked for and the pair
`(float64, error)` it answered. -/
structure ServiceCall where
  itemCode : String
  price : Price
  err : Option GoError
deriving DecidableEq, Repr

/-- The interface `PriceService`: `GetPriceFor(itemCode) (float64, error)`.  The answer is
a function of the item code and of the calls the service has received so far. -/
structure PriceService where
  GetPriceFor : List ServiceCall → String → Price × Option GoError

/-- The struct `TransparentCache`; the Go map `prices` is a partial function on item codes. -/
structure TransparentCache where
  actualPriceService : PriceService
  maxAge : Duration
  prices : String → Option CachedPrice

/-- The environment of the cache: `clock n` is the `n`-th reading of `time.Now()`, `ticks`
the number of readings taken so far, `calls` the calls received by the price service,
oldest first.  The field `callTicks` is bookkeeping that the code never reads: for each call
of `calls`, the number of readings of the clock taken before the call was made. -/
structure World where
  clock : Nat → Time
  ticks : Nat
  calls : List ServiceCall
  callTicks : List Nat := []

/-- The value `time.Now()` returns next. -/
def World.now (w : World) : Time := w.clock w.ticks

/-- The world after one reading of `time.Now()`. -/
def World.tick (w : World) : World := { w with ticks := w.ticks + 1 }

/-- The pair the price service answers to its next call, for `itemCode`. -/
def World.answer (w : World) (svc : PriceService) (itemCode : String) : Price × Option GoError :=
  svc.GetPriceFor w.calls itemCode

/-- The world after the price service has been called for `itemCode`. -/
def World.call (w : World) (svc : PriceService) (itemCode : String) : World :=
  { w with
    calls := w.calls ++ [⟨itemCode, (w.answer svc itemCode).1, (w.answer svc itemCode).2⟩]
    callTicks := w.callTicks ++ [w.ticks] }

/-- Assignment `m[k] = v` on a Go map. -/
def mapSet (m : String → Option CachedPrice) (k : String) (v : CachedPrice) :
    String → Option CachedPrice :=
  fun k' => if k' = k then some v else m k'

/-- The error `fmt.Errorf("getting price from service : %v", err.Error())`. -/
def wrapErr (e : GoError) : GoError := ⟨"getting price from service : " ++ e.msg⟩

/-- The function `NewTransparentCache`. -/
def NewTransparentCache (actualPriceService : PriceService) (maxAge : Duration) :
    TransparentCache :=
  { actualPriceService := actualPriceService, maxAge := maxAge, prices := fun _ => none }

/-! ## Single-item path -/

/-- What a call of `GetPriceFor` leaves: the returned pair, the cache and the world. -/
structure Outcome where
  price : Price
  err : Option GoError
  cache : TransparentCache
  world : World

/-- Lines 45-58 of `GetPriceFor`: ask the service; on an error return `0` and the wrapped
error; otherwise store the price with the time read at the store and return it.  The
mutex of lines 50-57 is created by the call itself, so locking it never blocks. -/
def fetchAndStore (c : TransparentCache) (w : World) (itemCode : String) : Outcome :=
  let r := w.answer c.actualPriceService itemCode
  let w1 := w.call c.actualPriceService itemCode
  match r.2 with
  | some err => { price := 0, err := some (wrapErr err), cache := c, world := w1 }
  | none =>
    { price := r.1, err := none,
      cache := { c with prices := mapSet c.prices itemCode { time := w1.now, price := r.1 } },
      world := w1.tick }

/-- The method `TransparentCache.GetPriceFor`, run without interference. -/
def GetPriceFor (c : TransparentCache) (w : World) (itemCode : String) : Outcome :=
  match c.prices itemCode with
  | some cachedPrice =>
    if Sub w.now cachedPrice.time < c.maxAge then
      { price := cachedPrice.price, err := none, cache := c, world := w.tick }
    else fetchAndStore c w.tick itemCode
  | none => fetchAndStore c w itemCode

/-- No entry of `itemCode` can be served when `time.Now()` is read in `w`: there is none, or
its age is at least `maxAge`. -/
def noFresh (c : TransparentCache) (w : World) (itemCode : String) : Prop :=
  c.prices itemCode = none ∨
    ∃ e, c.prices itemCode = some e ∧ c.maxAge ≤ Sub w.now e.time

/-- The world in which `GetPriceFor` reaches the service call of line 45: the clock has been
read once if an entry was found. -/
def atFetch (c : TransparentCache) (w : World) (itemCode : String) : World :=
  match c.prices itemCode with
  | some _ => w.tick
  | none => w

/-! ## Batch path

`GetPricesFor` starts one goroutine per position of `itemCodes` and waits for all of them.
Each goroutine runs lines 74-85 with `GetPriceFor` inlined; between two accesses to what the
goroutines share (the map `prices`, the clock, the price service, the variable `err`, the
slice `results`) any other goroutine may run. -/

/-- Where the goroutine of one position stands. -/
inductive Phase where
  /-- Line 79 entered, before the lookup `c.prices[itemCode]` of line 39. -/
  | start
  /-- An entry was found; before `time.Now()` of line 41. -/
  | checking (cachedPrice : CachedPrice)
  /-- No entry can be served; before the call of the price service of line 45. -/
  | fetching
  /-- The service answered `price` with a nil error; before lines 50-52, which create a
  mutex and lock it. -/
  | locking (price : Price)
  /-- The mutex numbered `mutex` is held; before `time.Now()` of line 54. -/
  | stamping (price : Price) (mutex : Nat)
  /-- The mutex numbered `mutex` is held; before the map assignment of line 53, followed by
  the unlock and the return of `GetPriceFor`. -/
  | storing (price : Price) (time : Time) (mutex : Nat)
  /-- The call `c.GetPriceFor(code)` returned `(price, innerErr)`; before the test
  `err == nil` of line 80. -/
  | returned (price : Price) (innerErr : Option GoError)
  /-- The test `err == nil` was true; before the assignment `err = innerErr` of line 81. -/
  | setting (price : Price) (innerErr : Option GoError)
  /-- Before the assignment `results[i] = price` of line 85. -/
  | writing (price : Price) (innerErr : Option GoError)
  /-- The goroutine has finished (`wg.Done()`); its call of `GetPriceFor` had returned
  `(price, innerErr)`. -/
  | done (price : Price) (innerErr : Option GoError)
deriving DecidableEq, Repr

/-- What the goroutines of one call of `GetPricesFor` share: the cache, the environment, the
variable `err`, the slice `results`, and the number of mutexes created so far. -/
structure Shared where
  cache : TransparentCache
  world : World
  err : Option GoError
  results : List Price
  mutexes : Nat

/-- One step of the goroutine of position `i`, whose item code is `code`: one access to what
the goroutines share, taken as a whole.  A step always succeeds; the abort of the Go runtime
on overlapping accesses to the map is not a step. -/
def unitStep (code : String) (i : Nat) (sh : Shared) : Phase → Shared × Phase
  | .start =>
    match sh.cache.prices code with
    | some cachedPrice => (sh, .checking cachedPrice)
    | none => (sh, .fetching)
  | .checking cachedPrice =>
    if Sub sh.world.now cachedPrice.time < sh.cache.maxAge then
      ({ sh with world := sh.world.tick }, .returned cachedPrice.price none)
    else ({ sh with world := sh.world.tick }, .fetching)
  | .fetching =>
    match (sh.world.answer sh.cache.actualPriceService code).2 with
    | some err =>
      ({ sh with world := sh.world.call sh.cache.actualPriceService code },
        .returned 0 (some (wrapErr err)))
    | none =>
      ({ sh with world := sh.world.call sh.cache.actualPriceService code },
        .locking (sh.world.answer sh.cache.actualPriceService code).1)
  | .locking price => ({ sh with mutexes := sh.mutexes + 1 }, .stamping price sh.mutexes)
  | .stamping price mutex => ({ sh with world := sh.world.tick }, .storing price sh.world.now mutex)
  | .storing price time _ =>
    ({ sh with cache := { sh.cache with prices := mapSet sh.cache.prices code ⟨time, price⟩ } },
      .returned price none)
  | .returned price innerErr =>
    match sh.err with
    | none => (sh, .setting price innerErr)
    | some _ => (sh, .writing price innerErr)
  | .setting price innerErr => ({ sh with err := innerErr }, .writing price innerErr)
  | .writing price innerErr => ({ sh with results := sh.results.set i price }, .done price innerErr)
  | .done price innerErr => (sh, .done price innerErr)

/-- State of one call of `GetPricesFor`: what is shared and the phase of every goroutine. -/
structure BatchState where
  shared : Shared
  phases : List Phase

/-- The goroutine of position `i` takes one step; nothing happens when there is no such
goroutine. -/
def step (itemCodes : List String) (s : BatchState) (i : Nat) : BatchState :=
  match itemCodes[i]?, s.phases[i]? with
  | some code, some ph =>
    { shared := (unitStep code i s.shared ph).1,
      phases := s.phases.set i (unitStep code i s.shared ph).2 }
  | _, _ => s

/-- The goroutines step in the order given by the schedule `sched`. -/
def run (itemCodes : List String) (s : BatchState) (sched : List Nat) : BatchState :=
  sched.foldl (step itemCodes) s

/-- Lines 65-87: `err` is nil, `results` holds `len(itemCodes)` zeros and every goroutine is
about to call `GetPriceFor`. -/
def initBatch (c : TransparentCache) (w : World) (itemCodes : List String) : BatchState :=
  { shared := { cache := c, world := w, err := none,
                results := List.replicate itemCodes.length 0, mutexes := 0 },
    phases := List.replicate itemCodes.length Phase.start }

/-- The schedule that lets the goroutines `0, ..., n - 1` run to their end one after the
other; a goroutine finishes within nine steps. -/
def drain : Nat → List Nat
  | 0 => []
  | n + 1 => drain n ++ List.replicate 9 n

/-- The state in which `wg.Wait()` of line 89 returns: the goroutines have stepped as `sched`
says, and those that had not finished by then have been run to their end. -/
def finalState (c : TransparentCache) (w : World) (itemCodes : List String)
    (sched : List Nat) : BatchState :=
  run itemCodes (run itemCodes (initBatch c w itemCodes) sched) (drain itemCodes.length)

/-- What a call of `GetPricesFor` leaves: the returned pair, the cache and the world. -/
structure BatchOutcome where
  prices : List Price
  err : Option GoError
  cache : TransparentCache
  world : World

/-- The method `TransparentCache.GetPricesFor`, its goroutines interleaved as `sched` says. -/
def GetPricesFor (c : TransparentCache) (w : World) (itemCodes : List String)
    (sched : List Nat) : BatchOutcome :=
  let s := finalState c w itemCodes sched
  match s.shared.err with
  | some err => { prices := [], err := some err, cache := s.shared.cache, world := s.shared.world }
  | none =>
    { prices := s.shared.results, err := none, cache := s.shared.cache, world := s.shared.world }

/-- The pair `(price, innerErr)` that the call of `GetPriceFor` made by a goroutine has
returned, once it has. -/
def Phase.ret : Phase → Option (Price × Option GoError)
  | .returned price innerErr => some (price, innerErr)
  | .setting price innerErr => some (price, innerErr)
  | .writing price innerErr => some (price, innerErr)
  | .done price innerErr => some (price, innerErr)
  | _ => none

/-- The pair `(price, innerErr)` that the call of `GetPriceFor` made by the goroutine of
position `i` has returned, once it has. -/
def unitReturn (s : BatchState) (i : Nat) : Option (Price × Option GoError) :=
  (s.phases[i]?).bind Phase.ret

/-- The price a goroutine has obtained from the price service and not stored yet. -/
def Phase.pending : Phase → Option Price
  | .locking price => some price
  | .stamping price _ => some price
  | .storing price _ _ => some price
  | _ => none

/-- Number of steps a goroutine in this phase takes at most before it has finished. -/
def Phase.rank : Phase → Nat
  | .start => 9
  | .checking _ => 8
  | .fetching => 7
  | .locking _ => 6
  | .stamping _ _ => 5
  | .storing _ _ _ => 4
  | .returned _ _ => 3
  | .setting _ _ => 2
  | .writing _ _ => 1
  | .done _ _ => 0

/-- The calls the price service has received since the world `w0`. -/
def callsSince (w0 : World) (s : BatchState) : List ServiceCall :=
  s.shared.world.calls.drop w0.calls.length

/-- What holds of every state of a call of `GetPricesFor` on `itemCodes` that started with
cache `c0` in world `w0`, however the goroutines are interleaved. -/
structure Inv (itemCodes : List String) (c0 : TransparentCache) (w0 : World)
    (s : BatchState) : Prop where
  /-- There is one goroutine per position. -/
  phases_length : s.phases.length = itemCodes.length
  /-- The slice `results` keeps the length it was made with. -/
  results_length : s.shared.results.length = itemCodes.length
  /-- The field `maxAge` is never assigned. -/
  maxAge : s.shared.cache.maxAge = c0.maxAge
  /-- The field `actualPriceService` is never assigned. -/
  service : s.shared.cache.actualPriceService = c0.actualPriceService
  /-- The readings of the clock are those of the initial world. -/
  clock : s.shared.world.clock = w0.clock
  /-- The log of the price service only grows. -/
  calls : ∃ l, s.shared.world.calls = w0.calls ++ l
  /-- A goroutine that has finished has written its price at its own position. -/
  results_done : ∀ (i : Nat) (p : Price) (e : Option GoError),
    s.phases[i]? = some (Phase.done p e) → s.shared.results[i]? = some p
  /-- A non-nil `err` is the `innerErr` of a goroutine that has assigned it. -/
  err_from : ∀ x, s.shared.err = some x →
    ∃ (i : Nat) (p : Price), s.phases[i]? = some (Phase.writing p (some x)) ∨
      s.phases[i]? = some (Phase.done p (some x))
  /-- A call of `GetPriceFor` that returned an error returned price `0` and the wrapped error
  of a failed call of the price service for its item code, made during the batch. -/
  return_err : ∀ (i : Nat) (p : Price) (x : GoError), unitReturn s i = some (p, some x) →
    p = 0 ∧ ∃ code q e, itemCodes[i]? = some code ∧
      (⟨code, q, some e⟩ : ServiceCall) ∈ callsSince w0 s ∧ x = wrapErr e
  /-- A price about to be stored was answered by the price service during the batch. -/
  pending_logged : ∀ (i : Nat) (p : Price), (s.phases[i]?).bind Phase.pending = some p →
    ∃ code, itemCodes[i]? = some code ∧ (⟨code, p, none⟩ : ServiceCall) ∈ callsSince w0 s
  /-- For an item code fetched with success during the batch, either a goroutine is about to
  store a price for it, or its entry holds a price fetched with success during the batch. -/
  stored : ∀ (k : String) (p : Price), (⟨k, p, none⟩ : ServiceCall) ∈ callsSince w0 s →
    (∃ (i : Nat) (q : Price), itemCodes[i]? = some k ∧
      (s.phases[i]?).bind Phase.pending = some q) ∨
    (∃ e, s.shared.cache.prices k = some e ∧
      (⟨k, e.price, none⟩ : ServiceCall) ∈ callsSince w0 s)

/-- The call of `GetPricesFor` returns under the schedule `sched`: the schedule is a whole
execution, at the end of which every goroutine has finished, so that `wg.Wait()` of line 89
returns.  An execution that the Go runtime aborts is not one. -/
def returnsUnder (c : TransparentCache) (w : World) (itemCodes : List String)
    (sched : List Nat) : Prop :=
  ∀ i, i < itemCodes.length →
    ((run itemCodes (initBatch c w itemCodes) sched).phases[i]?).map Phase.rank = some 0

/-! ## Further invariants of the batch path and reachable states -/

/-- The phase holds no price other than `price` and no error. -/
def Phase.agrees (price : Price) : Phase → Prop
  | .start => True
  | .checking cachedPrice => cachedPrice.price = price
  | .fetching => True
  | .locking p => p = price
  | .stamping p _ => p = price
  | .storing p _ _ => p = price
  | .returned p e => p = price ∧ e = none
  | .setting p e => p = price ∧ e = none
  | .writing p e => p = price ∧ e = none
  | .done p e => p = price ∧ e = none

/-- What holds of every state of a call of `GetPricesFor` on `itemCodes` when the price service
answers `(f code, nil)` for every item code of the batch and the entries of these item codes
held the price `f code` at the start. -/
structure DetInv (itemCodes : List String) (f : String → Price) (s : BatchState) : Prop where
  /-- The service always answers `f code` for the codes of the batch. -/
  service : ∀ calls code, code ∈ itemCodes →
    s.shared.cache.actualPriceService.GetPriceFor calls code = (f code, none)
  /-- The entries of the codes of the batch hold `f code`. -/
  entries : ∀ code e, code ∈ itemCodes → s.shared.cache.prices code = some e → e.price = f code
  /-- No error has been recorded. -/
  err : s.shared.err = none
  /-- Every goroutine holds the price of its code and no error. -/
  phases : ∀ (i : Nat) (code : String) (ph : Phase), itemCodes[i]? = some code →
    s.phases[i]? = some ph → ph.agrees (f code)

/-- The schedule that runs the goroutines of the positions listed in `order` to their end,
one after the other in that order. -/
def seqSched : List Nat → List Nat
  | [] => []
  | i :: rest => List.replicate 9 i ++ seqSched rest

/-- Number of calls of `l` made for item code `k`. -/
def callsFor (k : String) (l : List ServiceCall) : Nat :=
  l.countP (fun call => decide (call.itemCode = k))

/-- Number of calls of `l` made for item code `k` that the price service answered with a nil
error. -/
def successesFor (k : String) (l : List ServiceCall) : Nat :=
  l.countP (fun call => decide (call.itemCode = k ∧ call.err = none))

/-- What holds between two goroutines when the goroutines of a call of `GetPricesFor` on a new
cache run one after the other, and every reading of the clock with index below `bound` falls
within `maxAge` of the earlier readings made since the world `w0`. -/
structure SeqInv (itemCodes : List String) (w0 : World) (bound : Nat) (s : BatchState) :
    Prop where
  /-- Every goroutine is at its start or has finished. -/
  quiescent : ∀ (i : Nat) (ph : Phase), s.phases[i]? = some ph →
    ph = Phase.start ∨ ∃ p e, ph = Phase.done p e
  /-- The clock has not gone back. -/
  ticks_ge : w0.ticks ≤ s.shared.world.ticks
  /-- Every entry was stamped with a reading made during the batch. -/
  stamped : ∀ (k : String) (e : CachedPrice), s.shared.cache.prices k = some e →
    ∃ n, w0.ticks ≤ n ∧ n < s.shared.world.ticks ∧ e.time = w0.clock n
  /-- The price service has answered with success at most once per item code. -/
  once : ∀ k : String, successesFor k (callsSince w0 s) ≤ 1
  /-- An item code without entry has not been fetched with success. -/
  absent : ∀ k : String, s.shared.cache.prices k = none → successesFor k (callsSince w0 s) = 0
  /-- The price returned with a nil error for an item code is the price of its entry. -/
  same : ∀ (i : Nat) (p : Price) (code : String), s.phases[i]? = some (Phase.done p none) →
    itemCodes[i]? = some code → ∃ e, s.shared.cache.prices code = some e ∧ e.price = p
  /-- While `err` is nil no goroutine has failed. -/
  err_none : s.shared.err = none →
    ∀ (i : Nat) (p : Price) (e : Option GoError), s.phases[i]? = some (Phase.done p e) → e = none
  /-- After a failed call of the price service `err` is not nil. -/
  failed : ∀ call : ServiceCall, call ∈ callsSince w0 s → call.err ≠ none → s.shared.err ≠ none

/-- The mutex a goroutine holds: the one it has created and locked at lines 50-52 and has not
unlocked yet. -/
def Phase.holds : Phase → Option Nat
  | .stamping _ mutex => some mutex
  | .storing _ _ mutex => some mutex
  | _ => none

/-- The price service has answered `price` with a nil error to a call for `itemCode`, made
when `m` readings of the clock had been taken, so before the reading of index `m`. -/
def Logged (w : World) (itemCode : String) (price : Price) (m : Nat) : Prop :=
  ∃ j : Nat, w.calls[j]? = some (⟨itemCode, price, none⟩ : ServiceCall) ∧
    w.callTicks[j]? = some m

/-- Provenance of the entries: the price of every entry was answered with a nil error by a
call of the price service for its item code, and its time is a reading of the clock taken
after that call was made. -/
def Provenance (c : TransparentCache) (w : World) : Prop :=
  ∀ (k : String) (e : CachedPrice), c.prices k = some e →
    ∃ m n, Logged w k e.price m ∧ m ≤ n ∧ n < w.ticks ∧ e.time = w.clock n

/-- The world `w'` comes after the world `w`: same clock, more readings taken, more calls
made. -/
def World.later (w w' : World) : Prop :=
  w'.clock = w.clock ∧ w.ticks ≤ w'.ticks ∧ (∃ l, w'.calls = w.calls ++ l) ∧
    ∃ l, w'.callTicks = w.callTicks ++ l

/-- The states of a cache and its environment that can be reached from `NewTransparentCache`:
by a call of `GetPriceFor`, by a call of `GetPricesFor`, whatever the interleaving of its
goroutines, or by a reading of the clock made elsewhere. -/
inductive Reachable (svc : PriceService) (maxAge : Duration) : TransparentCache → World → Prop
  | new (w : World) (h : w.callTicks.length = w.calls.length) :
      Reachable svc maxAge (NewTransparentCache svc maxAge) w
  | elapse (c : TransparentCache) (w : World) (h : Reachable svc maxAge c w) :
      Reachable svc maxAge c w.tick
  | getPriceFor (c : TransparentCache) (w : World) (itemCode : String)
      (h : Reachable svc maxAge c w) :
      Reachable svc maxAge (GetPriceFor c w itemCode).cache (GetPriceFor c w itemCode).world
  | getPricesFor (c : TransparentCache) (w : World) (itemCodes : List String)
      (sched : List Nat) (h : Reachable svc maxAge c w) :
      Reachable svc maxAge (GetPricesFor c w itemCodes sched).cache
        (GetPricesFor c w itemCodes sched).world

/-- Provenance in every state of a call of `GetPricesFor`: of the entries, and of the prices
that the goroutines are about to store. -/
structure ProvInv (itemCodes : List String) (s : BatchState) : Prop where
  /-- Every call has its bookkeeping. -/
  wf : s.shared.world.callTicks.length = s.shared.world.calls.length
  /-- The entries have their provenance. -/
  entries : Provenance s.shared.cache s.shared.world
  /-- A price not stored yet was answered by a call made before now. -/
  pending : ∀ (i : Nat) (code : String) (p : Price), itemCodes[i]? = some code →
    (s.phases[i]?).bind Phase.pending = some p →
    ∃ m, Logged s.shared.world code p m ∧ m ≤ s.shared.world.ticks
  /-- The time a goroutine is about to store was read after the call that gave the price. -/
  storing : ∀ (i : Nat) (code : String) (p : Price) (t : Time) (mu : Nat),
    itemCodes[i]? = some code → s.phases[i]? = some (Phase.storing p t mu) →
    ∃ m n, Logged s.shared.world code p m ∧ m ≤ n ∧ n < s.shared.world.ticks ∧
      t = s.shared.world.clock n

/-- The Go map `m` without its entry for `k`. -/
def mapDelete (m : String → Option CachedPrice) (k : String) : String → Option CachedPrice :=
  fun k' => if k' = k then none else m k'

/-- Every time held by the cache or by a goroutine of the batch was read from the clock no
later than now. -/
def StampsPast (s : BatchState) : Prop :=
  (∀ (k : String) (e : CachedPrice), s.shared.cache.prices k = some e →
    e.time ≤ s.shared.world.now) ∧
  (∀ (i : Nat) (cp : CachedPrice), s.phases[i]? = some (Phase.checking cp) →
    cp.time ≤ s.shared.world.now) ∧
  (∀ (i : Nat) (p : Price) (t : Time) (mu : Nat), s.phases[i]? = some (Phase.storing p t mu) →
    t ≤ s.shared.world.now)

/-- The interface variable `err` of line 66 as the two machine words it is made of: `tab`
tells whether the type word is set, `data` is the error that the data word points to, if any.
An interface value is nil when its type word is not set. -/
structure ErrWords where
  tab : Bool
  data : Option GoError
deriving DecidableEq, Repr

/-- The two words of an `error` value: both unset for nil, both set for an error. -/
def ErrWords.ofErr : Option GoError → ErrWords
  | none => { tab := false, data := none }
  | some e => { tab := true, data := some e }

/-- State of one call of `GetPricesFor` with the variable `err` held as two words: `batch` is
the state of the goroutines and of what they share, whose field `err` is not used; `half`
tells for each goroutine whether it has written the type word of line 81 and not yet the data
word. -/
structure WordState where
  batch : BatchState
  err : ErrWords
  half : List Bool

/-- The goroutine of position `i` takes one step, the assignment `err = innerErr` of line 81
being two steps, one for each word.  The test `err == nil` of line 80 reads the type word.
The other steps are those of `step`. -/
def stepW (itemCodes : List String) (s : WordState) (i : Nat) : WordState :=
  match itemCodes[i]?, s.batch.phases[i]? with
  | some _, some (.returned price innerErr) =>
    if s.err.tab then
      { s with batch := { s.batch with phases := s.batch.phases.set i (.writing price innerErr) } }
    else
      { s with batch := { s.batch with phases := s.batch.phases.set i (.setting price innerErr) } }
  | some _, some (.setting price innerErr) =>
    if s.half.getD i false then
      { batch := { s.batch with phases := s.batch.phases.set i (.writing price innerErr) },
        err := { s.err with data := innerErr },
        half := s.half.set i false }
    else
      { s with err := { s.err with tab := innerErr.isSome }, half := s.half.set i true }
  | _, _ => { s with batch := step itemCodes s.batch i }

/-- The goroutines step in the order given by `sched`, `err` being held as two words. -/
def runW (itemCodes : List String) (s : WordState) (sched : List Nat) : WordState :=
  sched.foldl (stepW itemCodes) s

/-- The schedule that lets the goroutines `0, ..., n - 1` run to their end one after the
other when the assignment of line 81 takes two steps; a goroutine finishes within ten
steps. -/
def drainW : Nat → List Nat
  | 0 => []
  | n + 1 => drainW n ++ List.replicate 10 n

/-- The state in which `wg.Wait()` returns, `err` being held as two words. -/
def finalStateW (c : TransparentCache) (w : World) (itemCodes : List String)
    (sched : List Nat) : WordState :=
  runW itemCodes
    (runW itemCodes
      { batch := initBatch c w itemCodes, err := ErrWords.ofErr none,
        half := List.replicate itemCodes.length false } sched)
    (drainW itemCodes.length)

/-- What lines 92-96 return when `err` is held as two words: the prices, empty when `err` is
not nil, and the two words of the error. -/
def GetPricesForW (c : TransparentCache) (w : World) (itemCodes : List String)
    (sched : List Nat) : List Price × ErrWords :=
  if (finalStateW c w itemCodes sched).err.tab then ([], (finalStateW c w itemCodes sched).err)
  else ((finalStateW c w itemCodes sched).batch.shared.results,
    (finalStateW c w itemCodes sched).err)

/-! ## Concrete caches and worlds -/

/-- Price service that answers `10` for `"A"`, `20` for `"B"` and fails for any other code. -/
def svcAB : PriceService :=
  { GetPriceFor := fun _ code =>
      if code = "A" then (10, none)
      else if code = "B" then (20, none)
      else (0, some ⟨"unknown item"⟩) }

/-- Price service that answers for `"A"` the number of calls it has received, this one
included, and fails for any other code. -/
def svcCount : PriceService :=
  { GetPriceFor := fun calls code =>
      if code = "A" then ((calls.length : Int) + 1, none)
      else (0, some ⟨"unknown item"⟩) }

/-- World whose clock reads `100, 101, 102, ...` and whose service has not been called. -/
def world0 : World := { clock := fun n => 100 + n, ticks := 0, calls := [] }

/-- Cache over `svcAB` with `maxAge = 5` holding `"A"` at price `7`, stored at time `98`. -/
def cacheA : TransparentCache :=
  { actualPriceService := svcAB, maxAge := 5,
    prices := mapSet (fun _ => none) "A" { time := 98, price := 7 } }

/-- Cache over `svcAB` with `maxAge = 5` holding `"A"` and `"C"` at price `7`, both stored at
time `90`. -/
def cacheStale : TransparentCache :=
  { actualPriceService := svcAB, maxAge := 5,
    prices := mapSet (mapSet (fun _ => none) "A" { time := 90, price := 7 })
      "C" { time := 90, price := 7 } }

/-- Cache over `svcAB` with `maxAge = 0` holding `"A"` at price `7`, stored at time `100`. -/
def cacheNoAge : TransparentCache :=
  { actualPriceService := svcAB, maxAge := 0,
    prices := mapSet (fun _ => none) "A" { time := 100, price := 7 } }

/-! ## Properties of the single-item path -/

theorem Sub_mono_left (t t' u : Int) (h : t ≤ t') : Sub t u ≤ Sub t' u := by
  unfold Sub maxDuration minDuration
  split_ifs <;> simp only [Duration, Time] at * <;> omega

theorem mapSet_same (m : String → Option CachedPrice) (k : String) (v : CachedPrice) :
    mapSet m k v k = some v := by
  simp [mapSet]

theorem mapSet_other (m : String → Option CachedPrice) (k k' : String) (v : CachedPrice)
    (h : k' ≠ k) : mapSet m k v k' = m k' := by
  simp [mapSet, h]

theorem GetPriceFor_fresh (c : TransparentCache) (w : World) (itemCode : String)
    (e : CachedPrice) (he : c.prices itemCode = some e) (hage : Sub w.now e.time < c.maxAge) :
    GetPriceFor c w itemCode = { price := e.price, err := none, cache := c, world := w.tick } := by
  simp [GetPriceFor, he, hage]

theorem GetPriceFor_noFresh (c : TransparentCache) (w : World) (itemCode : String)
    (h : noFresh c w itemCode) :
    GetPriceFor c w itemCode = fetchAndStore c (atFetch c w itemCode) itemCode := by
  rcases h with h | ⟨e, he, hage⟩
  · simp [GetPriceFor, atFetch, h]
  · have : ¬ Sub w.now e.time < c.maxAge := not_lt.mpr hage
    simp [GetPriceFor, atFetch, he, this]

theorem atFetch_calls (c : TransparentCache) (w : World) (itemCode : String) :
    (atFetch c w itemCode).calls = w.calls := by
  unfold atFetch
  cases c.prices itemCode <;> rfl

theorem atFetch_clock (c : TransparentCache) (w : World) (itemCode : String) :
    (atFetch c w itemCode).clock = w.clock := by
  unfold atFetch
  cases c.prices itemCode <;> rfl

theorem fetchAndStore_calls (c : TransparentCache) (w : World) (itemCode : String) :
    (fetchAndStore c w itemCode).world.calls =
      w.calls ++ [⟨itemCode, (w.answer c.actualPriceService itemCode).1,
        (w.answer c.actualPriceService itemCode).2⟩] := by
  unfold fetchAndStore
  cases h : (w.answer c.actualPriceService itemCode).2 <;> simp [h, World.call, World.tick]

theorem fetchAndStore_fail (c : TransparentCache) (w : World) (itemCode : String) (e : GoError)
    (h : (w.answer c.actualPriceService itemCode).2 = some e) :
    fetchAndStore c w itemCode =
      { price := 0, err := some (wrapErr e), cache := c,
        world := w.call c.actualPriceService itemCode } := by
  simp [fetchAndStore, h]

theorem fetchAndStore_ok (c : TransparentCache) (w : World) (itemCode : String)
    (h : (w.answer c.actualPriceService itemCode).2 = none) :
    fetchAndStore c w itemCode =
      { price := (w.answer c.actualPriceService itemCode).1, err := none,
        cache := { c with
          prices := mapSet c.prices itemCode
            ⟨w.now, (w.answer c.actualPriceService itemCode).1⟩ },
        world := (w.call c.actualPriceService itemCode).tick } := by
  simp [fetchAndStore, h, World.call, World.now]

theorem fetchAndStore_maxAge (c : TransparentCache) (w : World) (itemCode : String) :
    (fetchAndStore c w itemCode).cache.maxAge = c.maxAge := by
  simp only [fetchAndStore]
  split <;> rfl

theorem fetchAndStore_service (c : TransparentCache) (w : World) (itemCode : String) :
    (fetchAndStore c w itemCode).cache.actualPriceService = c.actualPriceService := by
  simp only [fetchAndStore]
  split <;> rfl

theorem GetPriceFor_maxAge (c : TransparentCache) (w : World) (itemCode : String) :
    (GetPriceFor c w itemCode).cache.maxAge = c.maxAge := by
  unfold GetPriceFor
  split
  · split
    · rfl
    · exact fetchAndStore_maxAge _ _ _
  · exact fetchAndStore_maxAge _ _ _

theorem GetPriceFor_service (c : TransparentCache) (w : World) (itemCode : String) :
    (GetPriceFor c w itemCode).cache.actualPriceService = c.actualPriceService := by
  unfold GetPriceFor
  split
  · split
    · rfl
    · exact fetchAndStore_service _ _ _
  · exact fetchAndStore_service _ _ _

/-- C1 (freshness, cache hit): when `prices` holds `(p, t)` for `itemCode` and the age
`time.Now().Sub(t)` is below `maxAge`, `GetPriceFor` returns `(p, nil)`, the price service
receives no call (whatever it would have answered), and the cache, with the entry `(p, t)`
and its timestamp, is left as it was. -/
theorem GetPriceFor_hit (c : TransparentCache) (w : World) (itemCode : String)
    (p : Price) (t : Time)
    (he : c.prices itemCode = some ⟨t, p⟩) (hage : Sub w.now t < c.maxAge) :
    (GetPriceFor c w itemCode).price = p ∧
    (GetPriceFor c w itemCode).err = none ∧
    (GetPriceFor c w itemCode).world.calls = w.calls ∧
    (GetPriceFor c w itemCode).cache.prices = c.prices ∧
    (GetPriceFor c w itemCode).cache.prices itemCode = some ⟨t, p⟩ ∧
    (GetPriceFor c w itemCode).cache = c := by
  rw [GetPriceFor_fresh c w itemCode ⟨t, p⟩ he hage]
  exact ⟨rfl, rfl, rfl, rfl, he, rfl⟩

theorem GetPriceFor_hit_witness :
    cacheA.prices "A" = some ⟨98, 7⟩ ∧ Sub world0.now 98 < cacheA.maxAge ∧
    (GetPriceFor cacheA world0 "A").price = 7 ∧
    (GetPriceFor cacheA world0 "A").err = none ∧
    (GetPriceFor cacheA world0 "A").world.calls = [] :=
  ⟨by decide, by decide,
    (GetPriceFor_hit cacheA world0 "A" 7 98 (by decide) (by decide)).1,
    (GetPriceFor_hit cacheA world0 "A" 7 98 (by decide) (by decide)).2.1,
    (GetPriceFor_hit cacheA world0 "A" 7 98 (by decide) (by decide)).2.2.1⟩

/-- C2 (expiry, never stale): when `prices` holds `(pOld, t)` for `itemCode` and the age
`time.Now().Sub(t)` is at least `maxAge` (equality included), `GetPriceFor` calls the price
service once, for `itemCode`, and when the service answers `(pNew, nil)` it returns
`(pNew, nil)`.  Conversely, a call that returns a price `p` with a nil error and has not called
the service has found an entry with price `p` whose age is strictly below `maxAge`. -/
theorem GetPriceFor_expired (c : TransparentCache) (w : World) (itemCode : String) :
    (∀ (pOld : Price) (t : Time), c.prices itemCode = some ⟨t, pOld⟩ →
      c.maxAge ≤ Sub w.now t →
      (GetPriceFor c w itemCode).world.calls =
        w.calls ++ [⟨itemCode, (w.answer c.actualPriceService itemCode).1,
          (w.answer c.actualPriceService itemCode).2⟩] ∧
      ∀ pNew : Price, w.answer c.actualPriceService itemCode = (pNew, none) →
        (GetPriceFor c w itemCode).price = pNew ∧ (GetPriceFor c w itemCode).err = none) ∧
    (∀ p : Price, (GetPriceFor c w itemCode).price = p →
      (GetPriceFor c w itemCode).err = none →
      (GetPriceFor c w itemCode).world.calls = w.calls →
      ∃ t : Time, c.prices itemCode = some ⟨t, p⟩ ∧ Sub w.now t < c.maxAge) := by
  constructor
  · intro pOld t he hage
    have hnf : noFresh c w itemCode := Or.inr ⟨⟨t, pOld⟩, he, hage⟩
    have hw : (atFetch c w itemCode) = w.tick := by simp [atFetch, he]
    rw [GetPriceFor_noFresh c w itemCode hnf, hw]
    refine ⟨fetchAndStore_calls c w.tick itemCode, ?_⟩
    intro pNew hans
    have hans' : w.tick.answer c.actualPriceService itemCode = (pNew, none) := hans
    have h2 : (w.tick.answer c.actualPriceService itemCode).2 = none := by rw [hans']
    rw [fetchAndStore_ok c w.tick itemCode h2, hans']
    exact ⟨rfl, rfl⟩
  · intro p hp _ hcalls
    by_cases hnf : noFresh c w itemCode
    · exfalso
      rw [GetPriceFor_noFresh c w itemCode hnf, fetchAndStore_calls, atFetch_calls] at hcalls
      simpa using congrArg List.length hcalls
    · unfold noFresh at hnf
      push_neg at hnf
      cases he : c.prices itemCode with
      | none => exact absurd he hnf.1
      | some e =>
        have hage : Sub w.now e.time < c.maxAge := hnf.2 e he
        rw [GetPriceFor_fresh c w itemCode e he hage] at hp
        exact ⟨e.time, by rw [← hp], hage⟩

theorem GetPriceFor_expired_witness :
    cacheStale.prices "A" = some ⟨90, 7⟩ ∧ cacheStale.maxAge ≤ Sub world0.now 90 ∧
    world0.answer cacheStale.actualPriceService "A" = (10, none) ∧
    (GetPriceFor cacheStale world0 "A").world.calls = [⟨"A", 10, none⟩] ∧
    (GetPriceFor cacheStale world0 "A").price = 10 ∧
    (GetPriceFor cacheStale world0 "A").err = none :=
  ⟨by decide, by decide, by decide,
    ((GetPriceFor_expired cacheStale world0 "A").1 7 90 (by decide) (by decide)).1,
    ((GetPriceFor_expired cacheStale world0 "A").1 7 90 (by decide) (by decide)).2 10
      (by decide)⟩

/-- C3 (a failure of the price service is propagated and not cached): when `itemCode` has no
fresh entry (none, or one of age at least `maxAge`) and the price service fails with error `e`,
`GetPriceFor` returns price `0` and the error whose message is
`"getting price from service : "` followed by the message of `e`; `prices` is exactly the map
it was; and a subsequent call for `itemCode`, made when the clock reads no earlier than it did
for this call in case there is an entry, calls the price service again. -/
theorem GetPriceFor_service_failure (c : TransparentCache) (w : World) (itemCode : String)
    (e : GoError) (hnf : noFresh c w itemCode)
    (hfail : (w.answer c.actualPriceService itemCode).2 = some e) :
    (GetPriceFor c w itemCode).price = 0 ∧
    (GetPriceFor c w itemCode).err = some ⟨"getting price from service : " ++ e.msg⟩ ∧
    (GetPriceFor c w itemCode).cache.prices = c.prices ∧
    (GetPriceFor c w itemCode).world.calls =
      w.calls ++ [⟨itemCode, (w.answer c.actualPriceService itemCode).1, some e⟩] ∧
    ∀ w2 : World, (c.prices itemCode = none ∨ w.now ≤ w2.now) →
      (GetPriceFor (GetPriceFor c w itemCode).cache w2 itemCode).world.calls =
        w2.calls ++ [⟨itemCode, (w2.answer c.actualPriceService itemCode).1,
          (w2.answer c.actualPriceService itemCode).2⟩] := by
  have hfail' : ((atFetch c w itemCode).answer c.actualPriceService itemCode).2 = some e := by
    simpa [World.answer, atFetch_calls] using hfail
  have hout : GetPriceFor c w itemCode =
      { price := 0, err := some (wrapErr e), cache := c,
        world := (atFetch c w itemCode).call c.actualPriceService itemCode } := by
    rw [GetPriceFor_noFresh c w itemCode hnf]
    exact fetchAndStore_fail c _ itemCode e hfail'
  refine ⟨by rw [hout], by rw [hout]; rfl, by rw [hout], ?_, ?_⟩
  · rw [GetPriceFor_noFresh c w itemCode hnf, fetchAndStore_calls, atFetch_calls]
    simp only [World.answer, atFetch_calls] at hfail ⊢
    rw [hfail]
  · intro w2 h2
    have hnf2 : noFresh c w2 itemCode := by
      rcases hnf with habs | ⟨e0, he0, hage⟩
      · exact Or.inl habs
      · rcases h2 with habs | hle
        · exact Or.inl habs
        · exact Or.inr ⟨e0, he0, le_trans hage (Sub_mono_left _ _ _ hle)⟩
    rw [hout]
    show (GetPriceFor c w2 itemCode).world.calls = _
    rw [GetPriceFor_noFresh c w2 itemCode hnf2, fetchAndStore_calls, atFetch_calls]
    simp only [World.answer, atFetch_calls]

theorem GetPriceFor_service_failure_witness :
    noFresh cacheStale world0 "C" ∧
    (world0.answer cacheStale.actualPriceService "C").2 = some ⟨"unknown item"⟩ ∧
    (GetPriceFor cacheStale world0 "C").price = 0 ∧
    (GetPriceFor cacheStale world0 "C").err =
      some ⟨"getting price from service : unknown item"⟩ ∧
    (GetPriceFor cacheStale world0 "C").cache.prices = cacheStale.prices :=
  have hnf : noFresh cacheStale world0 "C" := Or.inr ⟨⟨90, 7⟩, by decide, by decide⟩
  ⟨hnf, by decide,
    (GetPriceFor_service_failure cacheStale world0 "C" ⟨"unknown item"⟩ hnf (by decide)).1,
    (GetPriceFor_service_failure cacheStale world0 "C" ⟨"unknown item"⟩ hnf (by decide)).2.1,
    (GetPriceFor_service_failure cacheStale world0 "C" ⟨"unknown item"⟩ hnf (by decide)).2.2.1⟩

/-- C4 (a successful fetch stores and returns): when `itemCode` has no fresh entry (none, or
one of age at least `maxAge`) and the price service answers `(p, nil)`, `GetPriceFor` returns
`(p, nil)` and the resulting `prices` is the previous map updated at `itemCode` with
`(p, tStore)`, where `tStore` is the reading of `time.Now()` taken at the store, the last
reading of the call: the entry of `itemCode` is `(p, tStore)`, whatever it was before, and the
entry of every other key is unchanged. -/
theorem GetPriceFor_fetch_stores (c : TransparentCache) (w : World) (itemCode : String)
    (p : Price) (hnf : noFresh c w itemCode)
    (hok : w.answer c.actualPriceService itemCode = (p, none)) :
    (GetPriceFor c w itemCode).price = p ∧
    (GetPriceFor c w itemCode).err = none ∧
    (GetPriceFor c w itemCode).cache.prices =
      mapSet c.prices itemCode ⟨(atFetch c w itemCode).now, p⟩ ∧
    (GetPriceFor c w itemCode).cache.prices itemCode =
      some ⟨(atFetch c w itemCode).now, p⟩ ∧
    (∀ k : String, k ≠ itemCode → (GetPriceFor c w itemCode).cache.prices k = c.prices k) ∧
    (GetPriceFor c w itemCode).world.ticks = (atFetch c w itemCode).ticks + 1 ∧
    (GetPriceFor c w itemCode).world.clock = w.clock := by
  have hok' : (atFetch c w itemCode).answer c.actualPriceService itemCode = (p, none) := by
    simpa [World.answer, atFetch_calls] using hok
  have h2 : ((atFetch c w itemCode).answer c.actualPriceService itemCode).2 = none := by
    rw [hok']
  rw [GetPriceFor_noFresh c w itemCode hnf, fetchAndStore_ok c _ itemCode h2, hok']
  refine ⟨rfl, rfl, rfl, mapSet_same _ _ _, fun k hk => mapSet_other _ _ _ _ hk, rfl, ?_⟩
  exact atFetch_clock c w itemCode

theorem GetPriceFor_fetch_stores_witness :
    noFresh cacheStale world0 "A" ∧
    world0.answer cacheStale.actualPriceService "A" = (10, none) ∧
    (GetPriceFor cacheStale world0 "A").price = 10 ∧
    (GetPriceFor cacheStale world0 "A").err = none ∧
    (GetPriceFor cacheStale world0 "A").cache.prices "A" = some ⟨101, 10⟩ :=
  have hnf : noFresh cacheStale world0 "A" := Or.inr ⟨⟨90, 7⟩, by decide, by decide⟩
  ⟨hnf, by decide,
    (GetPriceFor_fetch_stores cacheStale world0 "A" 10 hnf (by decide)).1,
    (GetPriceFor_fetch_stores cacheStale world0 "A" 10 hnf (by decide)).2.1,
    (GetPriceFor_fetch_stores cacheStale world0 "A" 10 hnf (by decide)).2.2.2.1⟩

/-- C5 (miss, then fetch, then hit): when `itemCode` has no entry and the price service answers
`(p, nil)`, `GetPriceFor` returns `(p, nil)` and stores the entry `(p, tStore)` with `tStore`
the reading of `time.Now()` at the store; a second call for `itemCode` on the resulting cache,
made in any world whose clock reads `now2` with `now2.Sub(tStore) < maxAge`, returns `(p, nil)`
and the price service receives no call. -/
theorem GetPriceFor_miss_then_hit (c : TransparentCache) (w : World) (itemCode : String)
    (p : Price) (habs : c.prices itemCode = none)
    (hok : w.answer c.actualPriceService itemCode = (p, none)) :
    (GetPriceFor c w itemCode).price = p ∧
    (GetPriceFor c w itemCode).err = none ∧
    (GetPriceFor c w itemCode).cache.prices itemCode = some ⟨w.now, p⟩ ∧
    ∀ w2 : World, Sub w2.now w.now < c.maxAge →
      (GetPriceFor (GetPriceFor c w itemCode).cache w2 itemCode).price = p ∧
      (GetPriceFor (GetPriceFor c w itemCode).cache w2 itemCode).err = none ∧
      (GetPriceFor (GetPriceFor c w itemCode).cache w2 itemCode).world.calls = w2.calls := by
  have hnf : noFresh c w itemCode := Or.inl habs
  have hat : atFetch c w itemCode = w := by simp [atFetch, habs]
  have h2 : (w.answer c.actualPriceService itemCode).2 = none := by rw [hok]
  have hout := GetPriceFor_noFresh c w itemCode hnf
  rw [hat, fetchAndStore_ok c w itemCode h2, hok] at hout
  have h4 : (GetPriceFor c w itemCode).cache.prices itemCode = some ⟨w.now, p⟩ := by
    rw [hout]
    exact mapSet_same _ _ _
  refine ⟨by rw [hout], by rw [hout], h4, ?_⟩
  intro w2 hage
  have hmax : (GetPriceFor c w itemCode).cache.maxAge = c.maxAge :=
    GetPriceFor_maxAge c w itemCode
  have hit := GetPriceFor_fresh (GetPriceFor c w itemCode).cache w2 itemCode ⟨w.now, p⟩ h4
    (by rw [hmax]; exact hage)
  rw [hit]
  exact ⟨rfl, rfl, rfl⟩

theorem GetPriceFor_miss_then_hit_witness :
    cacheA.prices "B" = none ∧ world0.answer cacheA.actualPriceService "B" = (20, none) ∧
    (GetPriceFor cacheA world0 "B").price = 20 ∧
    (GetPriceFor cacheA world0 "B").cache.prices "B" = some ⟨100, 20⟩ ∧
    (GetPriceFor (GetPriceFor cacheA world0 "B").cache
      (GetPriceFor cacheA world0 "B").world "B").price = 20 ∧
    (GetPriceFor (GetPriceFor cacheA world0 "B").cache
      (GetPriceFor cacheA world0 "B").world "B").world.calls = [⟨"B", 20, none⟩] :=
  ⟨by decide, by decide,
    (GetPriceFor_miss_then_hit cacheA world0 "B" 20 (by decide) (by decide)).1,
    (GetPriceFor_miss_then_hit cacheA world0 "B" 20 (by decide) (by decide)).2.2.1,
    ((GetPriceFor_miss_then_hit cacheA world0 "B" 20 (by decide) (by decide)).2.2.2
      (GetPriceFor cacheA world0 "B").world (by decide)).1,
    ((GetPriceFor_miss_then_hit cacheA world0 "B" 20 (by decide) (by decide)).2.2.2
      (GetPriceFor cacheA world0 "B").world (by decide)).2.2⟩

/-! ## The batch path: steps and termination -/

theorem run_nil (ids : List String) (s : BatchState) : run ids s [] = s := rfl

theorem run_cons (ids : List String) (s : BatchState) (i : Nat) (sched : List Nat) :
    run ids s (i :: sched) = run ids (step ids s i) sched := rfl

theorem run_append (ids : List String) (s : BatchState) (s1 s2 : List Nat) :
    run ids s (s1 ++ s2) = run ids (run ids s s1) s2 := by
  simp [run, List.foldl_append]

theorem run_induction (ids : List String) (P : BatchState → Prop)
    (hstep : ∀ s i, P s → P (step ids s i)) (sched : List Nat) :
    ∀ s, P s → P (run ids s sched) := by
  induction sched with
  | nil => intro s h; exact h
  | cons i rest ih => intro s h; exact ih _ (hstep s i h)

theorem step_eq (ids : List String) (s : BatchState) (i : Nat) (code : String) (ph : Phase)
    (hc : ids[i]? = some code) (hp : s.phases[i]? = some ph) :
    step ids s i = { shared := (unitStep code i s.shared ph).1,
                     phases := s.phases.set i (unitStep code i s.shared ph).2 } := by
  simp [step, hc, hp]

theorem step_cases (ids : List String) (s : BatchState) (i : Nat) :
    step ids s i = s ∨ ∃ code ph, ids[i]? = some code ∧ s.phases[i]? = some ph ∧
      step ids s i = { shared := (unitStep code i s.shared ph).1,
                       phases := s.phases.set i (unitStep code i s.shared ph).2 } := by
  cases hc : ids[i]? with
  | none => left; simp [step, hc]
  | some code =>
    cases hp : s.phases[i]? with
    | none => left; simp [step, hc, hp]
    | some ph => right; exact ⟨code, ph, rfl, rfl, step_eq ids s i code ph hc hp⟩

theorem step_phases_length (ids : List String) (s : BatchState) (i : Nat) :
    (step ids s i).phases.length = s.phases.length := by
  rcases step_cases ids s i with h | ⟨code, ph, -, -, h⟩ <;> rw [h]
  simp

theorem step_phase_other (ids : List String) (s : BatchState) (i j : Nat) (h : j ≠ i) :
    (step ids s i).phases[j]? = s.phases[j]? := by
  rcases step_cases ids s i with h' | ⟨code, ph, -, -, h'⟩ <;> rw [h']
  simp [List.getElem?_set_ne (Ne.symm h)]

theorem step_phase_self (ids : List String) (s : BatchState) (i : Nat) (code : String)
    (ph : Phase) (hc : ids[i]? = some code) (hp : s.phases[i]? = some ph) :
    (step ids s i).phases[i]? = some (unitStep code i s.shared ph).2 := by
  rw [step_eq ids s i code ph hc hp]
  have hi : i < s.phases.length := (List.getElem?_eq_some.mp hp).1
  simp [List.getElem?_set_self hi]

theorem unitStep_rank (code : String) (i : Nat) (sh : Shared) (ph : Phase) :
    (unitStep code i sh ph).2.rank ≤ ph.rank - 1 := by
  cases ph with
  | start => simp only [unitStep]; cases sh.cache.prices code <;> simp [Phase.rank]
  | checking cp => simp only [unitStep]; split_ifs <;> simp [Phase.rank]
  | fetching =>
    simp only [unitStep]
    cases (sh.world.answer sh.cache.actualPriceService code).2 <;> simp [Phase.rank]
  | returned p e => simp only [unitStep]; cases sh.err <;> simp [Phase.rank]
  | _ => simp [unitStep, Phase.rank]

theorem rank_eq_zero (ph : Phase) (h : ph.rank = 0) : ∃ p e, ph = .done p e := by
  cases ph <;> simp [Phase.rank] at h
  exact ⟨_, _, rfl⟩

theorem step_done_stays (ids : List String) (s : BatchState) (i j : Nat) (p : Price)
    (e : Option GoError) (h : s.phases[j]? = some (.done p e)) :
    (step ids s i).phases[j]? = some (.done p e) := by
  by_cases hji : j = i
  · subst hji
    cases hc : ids[j]? with
    | none => simp [step, hc, h]
    | some code => rw [step_phase_self ids s j code _ hc h]; rfl
  · rw [step_phase_other ids s i j hji, h]

theorem run_done_stays (ids : List String) (sched : List Nat) (j : Nat) (p : Price)
    (e : Option GoError) :
    ∀ s : BatchState, s.phases[j]? = some (.done p e) →
      (run ids s sched).phases[j]? = some (.done p e) :=
  run_induction ids (fun s => s.phases[j]? = some (.done p e))
    (fun s i h => step_done_stays ids s i j p e h) sched

theorem run_replicate_rank (ids : List String) (i : Nat) (code : String)
    (hc : ids[i]? = some code) (k : Nat) :
    ∀ (s : BatchState) (ph : Phase), s.phases[i]? = some ph →
      ∃ ph', (run ids s (List.replicate k i)).phases[i]? = some ph' ∧ ph'.rank ≤ ph.rank - k := by
  induction k with
  | zero => intro s ph h; exact ⟨ph, h, by simp⟩
  | succ k ih =>
    intro s ph h
    rw [List.replicate_succ, run_cons]
    obtain ⟨ph', h1, h2⟩ := ih (step ids s i) _ (step_phase_self ids s i code ph hc h)
    refine ⟨ph', h1, ?_⟩
    have := unitStep_rank code i s.shared ph
    omega



theorem run_phases_length (ids : List String) (sched : List Nat) (s : BatchState) :
    (run ids s sched).phases.length = s.phases.length :=
  run_induction ids (fun t => t.phases.length = s.phases.length)
    (fun t i h => (step_phases_length ids t i).trans h) sched s rfl

theorem drain_done (ids : List String) (m : Nat) (hm : m ≤ ids.length) :
    ∀ s : BatchState, s.phases.length = ids.length → ∀ j, j < m →
      ∃ p e, (run ids s (drain m)).phases[j]? = some (.done p e) := by
  induction m with
  | zero => intro s _ j hj; omega
  | succ m ih =>
    intro s hlen j hj
    rw [drain, run_append]
    by_cases hjm : j < m
    · obtain ⟨p, e, h⟩ := ih (by omega) s hlen j hjm
      exact ⟨p, e, run_done_stays ids _ j p e _ h⟩
    · have hjeq : j = m := by omega
      subst hjeq
      have hlen1 : (run ids s (drain j)).phases.length = ids.length := by
        rw [run_phases_length, hlen]
      have hj1 : j < (run ids s (drain j)).phases.length := by omega
      have hj2 : j < ids.length := by omega
      obtain ⟨ph', h1, h2⟩ := run_replicate_rank ids j ids[j] (List.getElem?_eq_getElem hj2) 9
        (run ids s (drain j)) _ (List.getElem?_eq_getElem hj1)
      have hr : ph'.rank = 0 := by
        have : ((run ids s (drain j)).phases[j]).rank ≤ 9 := by
          cases (run ids s (drain j)).phases[j] <;> simp [Phase.rank]
        omega
      obtain ⟨p, e, hpe⟩ := rank_eq_zero ph' hr
      exact ⟨p, e, by rw [h1, hpe]⟩

theorem initBatch_phases_length (c : TransparentCache) (w : World) (ids : List String) :
    (initBatch c w ids).phases.length = ids.length := by
  simp [initBatch]

theorem finalState_phases_length (c : TransparentCache) (w : World) (ids : List String)
    (sched : List Nat) : (finalState c w ids sched).phases.length = ids.length := by
  simp [finalState, run_phases_length, initBatch_phases_length]

/-- When `wg.Wait()` returns every goroutine has finished. -/
theorem finalState_done (c : TransparentCache) (w : World) (ids : List String)
    (sched : List Nat) (i : Nat) (hi : i < ids.length) :
    ∃ p e, (finalState c w ids sched).phases[i]? = some (.done p e) := by
  unfold finalState
  exact drain_done ids ids.length (le_refl _) _
    (by rw [run_phases_length, initBatch_phases_length]) i hi

/-- A step of a goroutine that has finished changes nothing. -/
theorem step_of_done (ids : List String) (s : BatchState) (i : Nat) (p : Price)
    (e : Option GoError) (h : s.phases[i]? = some (.done p e)) : step ids s i = s := by
  rcases step_cases ids s i with h' | ⟨code, ph, -, hp, h'⟩
  · exact h'
  · rw [h'] 
    rw [h] at hp
    cases hp
    simp only [unitStep]
    have hi : i < s.phases.length := (List.getElem?_eq_some.mp h).1
    have : s.phases.set i (.done p e) = s.phases := by
      apply List.ext_getElem? 
      intro j
      by_cases hij : i = j
      · subst hij; rw [List.getElem?_set_self hi, h]
      · rw [List.getElem?_set_ne hij]
    rw [this]

/-- Once every goroutine has finished, further steps change nothing. -/
theorem run_of_allDone (ids : List String) (sched : List Nat) :
    ∀ s : BatchState, (∀ i, i < ids.length → ∃ p e, s.phases[i]? = some (.done p e)) →
      run ids s sched = s := by
  induction sched with
  | nil => intro s _; rfl
  | cons i rest ih =>
    intro s h
    rw [run_cons]
    have hs : step ids s i = s := by
      by_cases hi : i < ids.length
      · obtain ⟨p, e, hpe⟩ := h i hi
        exact step_of_done ids s i p e hpe
      · simp [step, List.getElem?_eq_none (not_lt.mp hi)]
    rw [hs]
    exact ih s h

/-- A schedule under which every goroutine finishes is a whole execution: `wg.Wait()` returns
in the state it leads to. -/
theorem finalState_of_complete (c : TransparentCache) (w : World) (ids : List String)
    (sched : List Nat)
    (h : ∀ i, i < ids.length →
      ∃ p e, (run ids (initBatch c w ids) sched).phases[i]? = some (.done p e)) :
    finalState c w ids sched = run ids (initBatch c w ids) sched :=
  run_of_allDone ids (drain ids.length) _ h

/-! ## The batch path: invariant -/

/-! ### Effect of one step of a goroutine on what is shared -/

theorem unitStep_maxAge (code : String) (i : Nat) (sh : Shared) (ph : Phase) :
    (unitStep code i sh ph).1.cache.maxAge = sh.cache.maxAge := by
  cases ph <;> simp only [unitStep] <;> (try split) <;> rfl

theorem unitStep_service (code : String) (i : Nat) (sh : Shared) (ph : Phase) :
    (unitStep code i sh ph).1.cache.actualPriceService = sh.cache.actualPriceService := by
  cases ph <;> simp only [unitStep] <;> (try split) <;> rfl

theorem unitStep_clock (code : String) (i : Nat) (sh : Shared) (ph : Phase) :
    (unitStep code i sh ph).1.world.clock = sh.world.clock := by
  cases ph <;> simp only [unitStep] <;> (try split) <;> rfl

theorem unitStep_results_length (code : String) (i : Nat) (sh : Shared) (ph : Phase) :
    (unitStep code i sh ph).1.results.length = sh.results.length := by
  cases ph <;> simp only [unitStep] <;> (try split) <;> simp

theorem unitStep_calls (code : String) (i : Nat) (sh : Shared) (ph : Phase) :
    (ph ≠ .fetching ∧ (unitStep code i sh ph).1.world.calls = sh.world.calls) ∨
    (ph = .fetching ∧ (unitStep code i sh ph).1.world.calls = sh.world.calls ++
      [⟨code, (sh.world.answer sh.cache.actualPriceService code).1,
        (sh.world.answer sh.cache.actualPriceService code).2⟩]) := by
  cases ph <;> simp only [unitStep] <;> (try split) <;> simp [World.call, World.tick]

theorem unitStep_results (code : String) (i : Nat) (sh : Shared) (ph : Phase) :
    ((∀ p e, ph ≠ .writing p e) ∧ (unitStep code i sh ph).1.results = sh.results) ∨
    (∃ p e, ph = .writing p e ∧ (unitStep code i sh ph).1.results = sh.results.set i p) := by
  cases ph <;> simp only [unitStep] <;> (try split) <;> simp

theorem unitStep_err (code : String) (i : Nat) (sh : Shared) (ph : Phase) :
    ((∀ p e, ph ≠ .setting p e) ∧ (unitStep code i sh ph).1.err = sh.err) ∨
    (∃ p e, ph = .setting p e ∧ (unitStep code i sh ph).1.err = e) := by
  cases ph <;> simp only [unitStep] <;> (try split) <;> simp

theorem unitStep_prices (code : String) (i : Nat) (sh : Shared) (ph : Phase) :
    ((∀ p t m, ph ≠ .storing p t m) ∧ (unitStep code i sh ph).1.cache.prices = sh.cache.prices) ∨
    (∃ p t m, ph = .storing p t m ∧
      (unitStep code i sh ph).1.cache.prices = mapSet sh.cache.prices code ⟨t, p⟩) := by
  cases ph <;> simp only [unitStep] <;> (try split) <;>
    first | (right; exact ⟨_, _, _, rfl, rfl⟩) | simp

/-! ### Effect of one step of a goroutine on its phase -/

theorem unitStep_to_done (code : String) (i : Nat) (sh : Shared) (ph : Phase) (p : Price)
    (e : Option GoError) (h : (unitStep code i sh ph).2 = .done p e) :
    ph = .writing p e ∨ ph = .done p e := by
  cases ph <;> simp only [unitStep] at h <;> (try split at h) <;> simp_all

theorem unitStep_to_writing (code : String) (i : Nat) (sh : Shared) (ph : Phase) (p : Price)
    (e : Option GoError) (h : (unitStep code i sh ph).2 = .writing p e) :
    ph = .setting p e ∨ (ph = .returned p e ∧ sh.err ≠ none) := by
  cases ph <;> simp only [unitStep] at h <;> (try split at h) <;> simp_all

theorem unitStep_of_writing (code : String) (i : Nat) (sh : Shared) (p : Price)
    (e : Option GoError) : (unitStep code i sh (.writing p e)).2 = .done p e := rfl

theorem unitStep_of_done (code : String) (i : Nat) (sh : Shared) (p : Price)
    (e : Option GoError) : (unitStep code i sh (.done p e)).2 = .done p e := rfl

theorem unitStep_ret (code : String) (i : Nat) (sh : Shared) (ph : Phase) (p : Price)
    (x : GoError) (h : (unitStep code i sh ph).2.ret = some (p, some x)) :
    ph.ret = some (p, some x) ∨
    (ph = .fetching ∧ p = 0 ∧
      ∃ e, (sh.world.answer sh.cache.actualPriceService code).2 = some e ∧ x = wrapErr e) := by
  cases ph <;> simp only [unitStep] at h <;> (try split at h) <;> simp_all [Phase.ret]

theorem unitStep_pending (code : String) (i : Nat) (sh : Shared) (ph : Phase) (p : Price)
    (h : (unitStep code i sh ph).2.pending = some p) :
    ph.pending = some p ∨
    (ph = .fetching ∧ (sh.world.answer sh.cache.actualPriceService code).1 = p ∧
      (sh.world.answer sh.cache.actualPriceService code).2 = none) := by
  cases ph <;> simp only [unitStep] at h <;> (try split at h) <;> simp_all [Phase.pending]

theorem unitStep_pending_kept (code : String) (i : Nat) (sh : Shared) (ph : Phase) (q : Price)
    (h : ph.pending = some q) :
    (unitStep code i sh ph).2.pending = some q ∨ ∃ t m, ph = .storing q t m := by
  cases ph <;> simp_all [Phase.pending, unitStep]



/-! ### The invariant is kept by every step -/

theorem callsSince_step (w0 : World) (s : BatchState) (code : String) (i : Nat) (ph : Phase)
    (phs : List Phase) (hcalls : ∃ l, s.shared.world.calls = w0.calls ++ l) :
    (ph ≠ .fetching ∧
      callsSince w0 { shared := (unitStep code i s.shared ph).1, phases := phs } =
        callsSince w0 s) ∨
    (ph = .fetching ∧
      callsSince w0 { shared := (unitStep code i s.shared ph).1, phases := phs } =
        callsSince w0 s ++
          [⟨code, (s.shared.world.answer s.shared.cache.actualPriceService code).1,
            (s.shared.world.answer s.shared.cache.actualPriceService code).2⟩]) := by
  obtain ⟨l, hl⟩ := hcalls
  rcases unitStep_calls code i s.shared ph with ⟨h1, h2⟩ | ⟨h1, h2⟩
  · left
    exact ⟨h1, by simp only [callsSince, h2]⟩
  · right
    refine ⟨h1, ?_⟩
    simp only [callsSince, h2, hl, List.append_assoc, List.drop_left]

theorem callsSince_step_mono (w0 : World) (s : BatchState) (code : String) (i : Nat)
    (ph : Phase) (phs : List Phase) (hcalls : ∃ l, s.shared.world.calls = w0.calls ++ l)
    (x : ServiceCall) (hx : x ∈ callsSince w0 s) :
    x ∈ callsSince w0 { shared := (unitStep code i s.shared ph).1, phases := phs } := by
  rcases callsSince_step w0 s code i ph phs hcalls with ⟨-, h⟩ | ⟨-, h⟩ <;> rw [h]
  · exact hx
  · exact List.mem_append_left _ hx

theorem step_results_done (ids : List String) (c0 : TransparentCache) (w0 : World)
    (s : BatchState) (h : Inv ids c0 w0 s) (i : Nat) (code : String) (ph : Phase)
    (hp : s.phases[i]? = some ph) (j : Nat) (p : Price) (e : Option GoError)
    (hj : (s.phases.set i (unitStep code i s.shared ph).2)[j]? = some (Phase.done p e)) :
    (unitStep code i s.shared ph).1.results[j]? = some p := by
  have hi : i < s.phases.length := (List.getElem?_eq_some.mp hp).1
  have hir : i < s.shared.results.length := by
    rw [h.results_length, ← h.phases_length]; exact hi
  by_cases hji : j = i
  · subst hji
    rw [List.getElem?_set_self hi] at hj
    rcases unitStep_to_done code j s.shared ph p e (Option.some.inj hj) with hw | hd
    · subst hw
      simp only [unitStep]
      exact List.getElem?_set_self hir
    · subst hd
      simp only [unitStep]
      exact h.results_done j p e hp
  · rw [List.getElem?_set_ne (Ne.symm hji)] at hj
    have hold := h.results_done j p e hj
    rcases unitStep_results code i s.shared ph with ⟨-, hr⟩ | ⟨q, e', -, hr⟩ <;> rw [hr]
    · exact hold
    · rw [List.getElem?_set_ne (Ne.symm hji)]; exact hold

theorem step_err_from (ids : List String) (c0 : TransparentCache) (w0 : World)
    (s : BatchState) (h : Inv ids c0 w0 s) (i : Nat) (code : String) (ph : Phase)
    (hp : s.phases[i]? = some ph) (x : GoError)
    (hx : (unitStep code i s.shared ph).1.err = some x) :
    ∃ (j : Nat) (p : Price),
      (s.phases.set i (unitStep code i s.shared ph).2)[j]? = some (Phase.writing p (some x)) ∨
      (s.phases.set i (unitStep code i s.shared ph).2)[j]? = some (Phase.done p (some x)) := by
  have hi : i < s.phases.length := (List.getElem?_eq_some.mp hp).1
  rcases unitStep_err code i s.shared ph with ⟨-, he⟩ | ⟨p, e, hset, he⟩
  · rw [he] at hx
    obtain ⟨k, p, hk⟩ := h.err_from x hx
    by_cases hki : k = i
    · subst hki
      refine ⟨k, p, Or.inr ?_⟩
      rw [List.getElem?_set_self hi]
      rcases hk with hk | hk <;> rw [hp] at hk <;> cases hk <;> rfl
    · refine ⟨k, p, ?_⟩
      rw [List.getElem?_set_ne (Ne.symm hki)]
      exact hk
  · subst hset
    rw [he] at hx
    subst hx
    exact ⟨i, p, Or.inl (by rw [List.getElem?_set_self hi]; rfl)⟩

theorem step_return_err (ids : List String) (c0 : TransparentCache) (w0 : World)
    (s : BatchState) (h : Inv ids c0 w0 s) (i : Nat) (code : String) (ph : Phase)
    (hc : ids[i]? = some code) (hp : s.phases[i]? = some ph) (j : Nat) (p : Price)
    (x : GoError)
    (hj : unitReturn { shared := (unitStep code i s.shared ph).1,
                       phases := s.phases.set i (unitStep code i s.shared ph).2 } j =
      some (p, some x)) :
    p = 0 ∧ ∃ code' q e, ids[j]? = some code' ∧
      (⟨code', q, some e⟩ : ServiceCall) ∈
        callsSince w0 { shared := (unitStep code i s.shared ph).1,
                        phases := s.phases.set i (unitStep code i s.shared ph).2 } ∧
      x = wrapErr e := by
  have hi : i < s.phases.length := (List.getElem?_eq_some.mp hp).1
  have hold : unitReturn s j = some (p, some x) →
      p = 0 ∧ ∃ code' q e, ids[j]? = some code' ∧
        (⟨code', q, some e⟩ : ServiceCall) ∈
          callsSince w0 { shared := (unitStep code i s.shared ph).1,
                          phases := s.phases.set i (unitStep code i s.shared ph).2 } ∧
        x = wrapErr e := by
    intro hr
    obtain ⟨h0, code', q, e, h1, h2, h3⟩ := h.return_err j p x hr
    exact ⟨h0, code', q, e, h1, callsSince_step_mono w0 s code i ph _ h.calls _ h2, h3⟩
  by_cases hji : j = i
  · subst hji
    simp only [unitReturn, List.getElem?_set_self hi, Option.some_bind] at hj
    rcases unitStep_ret code j s.shared ph p x hj with hr | ⟨hf, h0, e, he, hxe⟩
    · exact hold (by simp only [unitReturn, hp, Option.some_bind]; exact hr)
    · refine ⟨h0, code, (s.shared.world.answer s.shared.cache.actualPriceService code).1, e,
        hc, ?_, hxe⟩
      rcases callsSince_step w0 s code j ph (s.phases.set j (unitStep code j s.shared ph).2)
        h.calls with ⟨hne, -⟩ | ⟨-, hcs⟩
      · exact absurd hf hne
      · rw [hcs, he]
        exact List.mem_append_right _ (List.mem_singleton.mpr rfl)
  · apply hold
    simp only [unitReturn, List.getElem?_set_ne (Ne.symm hji)] at hj
    exact hj

theorem step_pending_logged (ids : List String) (c0 : TransparentCache) (w0 : World)
    (s : BatchState) (h : Inv ids c0 w0 s) (i : Nat) (code : String) (ph : Phase)
    (hc : ids[i]? = some code) (hp : s.phases[i]? = some ph) (j : Nat) (p : Price)
    (hj : ((s.phases.set i (unitStep code i s.shared ph).2)[j]?).bind Phase.pending = some p) :
    ∃ code', ids[j]? = some code' ∧
      (⟨code', p, none⟩ : ServiceCall) ∈
        callsSince w0 { shared := (unitStep code i s.shared ph).1,
                        phases := s.phases.set i (unitStep code i s.shared ph).2 } := by
  have hi : i < s.phases.length := (List.getElem?_eq_some.mp hp).1
  have hold : (s.phases[j]?).bind Phase.pending = some p →
      ∃ code', ids[j]? = some code' ∧
        (⟨code', p, none⟩ : ServiceCall) ∈
          callsSince w0 { shared := (unitStep code i s.shared ph).1,
                          phases := s.phases.set i (unitStep code i s.shared ph).2 } := by
    intro hr
    obtain ⟨code', h1, h2⟩ := h.pending_logged j p hr
    exact ⟨code', h1, callsSince_step_mono w0 s code i ph _ h.calls _ h2⟩
  by_cases hji : j = i
  · subst hji
    simp only [List.getElem?_set_self hi, Option.some_bind] at hj
    rcases unitStep_pending code j s.shared ph p hj with hr | ⟨hf, h1, h2⟩
    · exact hold (by simp only [hp, Option.some_bind]; exact hr)
    · refine ⟨code, hc, ?_⟩
      rcases callsSince_step w0 s code j ph (s.phases.set j (unitStep code j s.shared ph).2)
        h.calls with ⟨hne, -⟩ | ⟨-, hcs⟩
      · exact absurd hf hne
      · rw [hcs, h1, h2]
        exact List.mem_append_right _ (List.mem_singleton.mpr rfl)
  · apply hold
    rw [List.getElem?_set_ne (Ne.symm hji)] at hj
    exact hj



theorem step_stored (ids : List String) (c0 : TransparentCache) (w0 : World)
    (s : BatchState) (h : Inv ids c0 w0 s) (i : Nat) (code : String) (ph : Phase)
    (hc : ids[i]? = some code) (hp : s.phases[i]? = some ph) (k : String) (p : Price)
    (hk : (⟨k, p, none⟩ : ServiceCall) ∈
      callsSince w0 { shared := (unitStep code i s.shared ph).1,
                      phases := s.phases.set i (unitStep code i s.shared ph).2 }) :
    (∃ (j : Nat) (q : Price), ids[j]? = some k ∧
      ((s.phases.set i (unitStep code i s.shared ph).2)[j]?).bind Phase.pending = some q) ∨
    (∃ e, (unitStep code i s.shared ph).1.cache.prices k = some e ∧
      (⟨k, e.price, none⟩ : ServiceCall) ∈
        callsSince w0 { shared := (unitStep code i s.shared ph).1,
                        phases := s.phases.set i (unitStep code i s.shared ph).2 }) := by
  have hi : i < s.phases.length := (List.getElem?_eq_some.mp hp).1
  have hmono := callsSince_step_mono w0 s code i ph
    (s.phases.set i (unitStep code i s.shared ph).2) h.calls
  -- the entry written by a goroutine that stores comes from a logged call
  have hstore : ∀ q t m, ph = .storing q t m →
      ∃ e, (unitStep code i s.shared ph).1.cache.prices code = some e ∧
        (⟨code, e.price, none⟩ : ServiceCall) ∈
          callsSince w0 { shared := (unitStep code i s.shared ph).1,
                          phases := s.phases.set i (unitStep code i s.shared ph).2 } := by
    intro q t m hst
    obtain ⟨code', hc', hlog⟩ := h.pending_logged i q (by rw [hp, hst]; rfl)
    rw [hc] at hc'
    cases hc'
    refine ⟨⟨t, q⟩, ?_, hmono _ hlog⟩
    subst hst
    simp only [unitStep]
    exact mapSet_same _ _ _
  -- the case of a call that was already logged before the step
  have hold : (⟨k, p, none⟩ : ServiceCall) ∈ callsSince w0 s →
      (∃ (j : Nat) (q : Price), ids[j]? = some k ∧
        ((s.phases.set i (unitStep code i s.shared ph).2)[j]?).bind Phase.pending = some q) ∨
      (∃ e, (unitStep code i s.shared ph).1.cache.prices k = some e ∧
        (⟨k, e.price, none⟩ : ServiceCall) ∈
          callsSince w0 { shared := (unitStep code i s.shared ph).1,
                          phases := s.phases.set i (unitStep code i s.shared ph).2 }) := by
    intro hin
    rcases h.stored k p hin with ⟨j, q, hjc, hjp⟩ | ⟨e, he, hmem⟩
    · by_cases hji : j = i
      · subst hji
        rw [hp] at hjp
        rw [hc] at hjc
        cases hjc
        rcases unitStep_pending_kept code j s.shared ph q hjp with hkept | ⟨t, m, hst⟩
        · exact Or.inl ⟨j, q, hc, by rw [List.getElem?_set_self hi]; exact hkept⟩
        · exact Or.inr (hstore q t m hst)
      · exact Or.inl ⟨j, q, hjc, by rw [List.getElem?_set_ne (Ne.symm hji)]; exact hjp⟩
    · rcases unitStep_prices code i s.shared ph with ⟨-, hpr⟩ | ⟨q, t, m, hst, hpr⟩
      · exact Or.inr ⟨e, by rw [hpr]; exact he, hmono _ hmem⟩
      · by_cases hkc : k = code
        · subst hkc
          exact Or.inr (hstore q t m hst)
        · exact Or.inr ⟨e, by rw [hpr, mapSet_other _ _ _ _ hkc]; exact he, hmono _ hmem⟩
  rcases callsSince_step w0 s code i ph (s.phases.set i (unitStep code i s.shared ph).2)
    h.calls with ⟨-, hcs⟩ | ⟨hf, hcs⟩
  · rw [hcs] at hk
    exact hold hk
  · rw [hcs] at hk
    rcases List.mem_append.mp hk with hin | hnew
    · exact hold hin
    · have hnew' := List.mem_singleton.mp hnew
      injection hnew' with h1 h2 h3
      refine Or.inl ⟨i, (s.shared.world.answer s.shared.cache.actualPriceService code).1,
        by rw [hc, h1], ?_⟩
      rw [List.getElem?_set_self hi]
      subst hf
      simp only [unitStep, ← h3, Option.some_bind, Phase.pending]

theorem Inv_step (ids : List String) (c0 : TransparentCache) (w0 : World)
    (s : BatchState) (i : Nat) (h : Inv ids c0 w0 s) : Inv ids c0 w0 (step ids s i) := by
  rcases step_cases ids s i with h' | ⟨code, ph, hc, hp, h'⟩
  · rw [h']; exact h
  · rw [h']
    exact {
      phases_length := by simp [h.phases_length]
      results_length := (unitStep_results_length code i s.shared ph).trans h.results_length
      maxAge := (unitStep_maxAge code i s.shared ph).trans h.maxAge
      service := (unitStep_service code i s.shared ph).trans h.service
      clock := (unitStep_clock code i s.shared ph).trans h.clock
      calls := by
        obtain ⟨l, hl⟩ := h.calls
        rcases unitStep_calls code i s.shared ph with ⟨-, h2⟩ | ⟨-, h2⟩
        · exact ⟨l, h2.trans hl⟩
        · exact ⟨l ++ [_], by rw [h2, hl, List.append_assoc]⟩
      results_done := step_results_done ids c0 w0 s h i code ph hp
      err_from := step_err_from ids c0 w0 s h i code ph hp
      return_err := step_return_err ids c0 w0 s h i code ph hc hp
      pending_logged := step_pending_logged ids c0 w0 s h i code ph hc hp
      stored := step_stored ids c0 w0 s h i code ph hc hp }

theorem Inv_init (c : TransparentCache) (w : World) (ids : List String) :
    Inv ids c w (initBatch c w ids) where
  phases_length := by simp [initBatch]
  results_length := by simp [initBatch]
  maxAge := rfl
  service := rfl
  clock := rfl
  calls := ⟨[], by simp [initBatch]⟩
  results_done := by
    intro i p e h
    simp only [initBatch, List.getElem?_replicate] at h
    split at h <;> simp at h
  err_from := by intro x h; simp [initBatch] at h
  return_err := by
    intro i p x h
    simp only [unitReturn, initBatch, List.getElem?_replicate] at h
    split at h <;> simp [Phase.ret] at h
  pending_logged := by
    intro i p h
    simp only [initBatch, List.getElem?_replicate] at h
    split at h <;> simp [Phase.pending] at h
  stored := by
    intro k p h
    simp [callsSince, initBatch] at h

theorem Inv_run (ids : List String) (c0 : TransparentCache) (w0 : World) (sched : List Nat)
    (s : BatchState) (h : Inv ids c0 w0 s) : Inv ids c0 w0 (run ids s sched) :=
  run_induction ids (Inv ids c0 w0) (fun s i h => Inv_step ids c0 w0 s i h) sched s h

theorem Inv_final (c : TransparentCache) (w : World) (ids : List String) (sched : List Nat) :
    Inv ids c w (finalState c w ids sched) :=
  Inv_run ids c w _ _ (Inv_run ids c w _ _ (Inv_init c w ids))

/-! ## The batch path: a goroutine alone runs `GetPriceFor` -/

theorem step_set (ids : List String) (sh : Shared) (phs : List Phase) (i : Nat) (code : String)
    (ph : Phase) (hc : ids[i]? = some code) (hi : i < phs.length) :
    step ids { shared := sh, phases := phs.set i ph } i =
      { shared := (unitStep code i sh ph).1, phases := phs.set i (unitStep code i sh ph).2 } := by
  have hp : (phs.set i ph)[i]? = some ph := List.getElem?_set_self hi
  simp only [step, hc, hp, List.set_set]

/-- Run without interference from its start, the goroutine of position `i` reaches the
return of its call `c.GetPriceFor(code)` within six steps, and what the steps have done to the
cache and to the world, and the pair returned, are those of `GetPriceFor`. -/
theorem unit_refines_GetPriceFor (ids : List String) (s : BatchState) (i : Nat) (code : String)
    (hc : ids[i]? = some code) (hp : s.phases[i]? = some Phase.start) :
    ∃ k, k ≤ 6 ∧
      (run ids s (List.replicate k i)).phases =
        s.phases.set i (Phase.returned (GetPriceFor s.shared.cache s.shared.world code).price
          (GetPriceFor s.shared.cache s.shared.world code).err) ∧
      (run ids s (List.replicate k i)).shared.cache =
        (GetPriceFor s.shared.cache s.shared.world code).cache ∧
      (run ids s (List.replicate k i)).shared.world =
        (GetPriceFor s.shared.cache s.shared.world code).world ∧
      (run ids s (List.replicate k i)).shared.err = s.shared.err ∧
      (run ids s (List.replicate k i)).shared.results = s.shared.results := by
  have hi : i < s.phases.length := (List.getElem?_eq_some.mp hp).1
  have h0 := step_eq ids s i code Phase.start hc hp
  cases hpr : s.shared.cache.prices code with
  | some cp =>
    by_cases hage : Sub s.shared.world.now cp.time < s.shared.cache.maxAge
    · refine ⟨2, by omega, ?_⟩
      simp [List.replicate, run, h0, unitStep, hpr, step_set ids _ _ i code _ hc hi, hage,
        GetPriceFor]
    · cases hans : (s.shared.world.answer s.shared.cache.actualPriceService code).2 with
      | some e =>
        refine ⟨3, by omega, ?_⟩
        have hans' : (s.shared.world.tick.answer s.shared.cache.actualPriceService code).2 =
          some e := hans
        simp [List.replicate, run, h0, unitStep, hpr, step_set ids _ _ i code _ hc hi, hage,
          GetPriceFor, fetchAndStore, hans']
      | none =>
        refine ⟨6, by omega, ?_⟩
        have hans' : (s.shared.world.tick.answer s.shared.cache.actualPriceService code).2 =
          none := hans
        simp [List.replicate, run, h0, unitStep, hpr, step_set ids _ _ i code _ hc hi, hage,
          GetPriceFor, fetchAndStore, hans']
  | none =>
    cases hans : (s.shared.world.answer s.shared.cache.actualPriceService code).2 with
    | some e =>
      refine ⟨2, by omega, ?_⟩
      simp [List.replicate, run, h0, unitStep, hpr, step_set ids _ _ i code _ hc hi,
        GetPriceFor, fetchAndStore, hans]
    | none =>
      refine ⟨5, by omega, ?_⟩
      simp [List.replicate, run, h0, unitStep, hpr, step_set ids _ _ i code _ hc hi,
        GetPriceFor, fetchAndStore, hans]

/-! ## Properties of the batch path -/

set_option maxRecDepth 100000

theorem GetPricesFor_cache (c : TransparentCache) (w : World) (ids : List String)
    (sched : List Nat) :
    (GetPricesFor c w ids sched).cache = (finalState c w ids sched).shared.cache := by
  simp only [GetPricesFor]
  split <;> rfl

theorem GetPricesFor_world (c : TransparentCache) (w : World) (ids : List String)
    (sched : List Nat) :
    (GetPricesFor c w ids sched).world = (finalState c w ids sched).shared.world := by
  simp only [GetPricesFor]
  split <;> rfl

theorem GetPricesFor_err (c : TransparentCache) (w : World) (ids : List String)
    (sched : List Nat) :
    (GetPricesFor c w ids sched).err = (finalState c w ids sched).shared.err := by
  simp only [GetPricesFor]
  split <;> simp_all

theorem unitReturn_of_done (s : BatchState) (i : Nat) (p : Price) (e : Option GoError)
    (h : s.phases[i]? = some (.done p e)) : unitReturn s i = some (p, e) := by
  simp [unitReturn, h, Phase.ret]

/-- C6 (batch order and length): for every sequence of item codes, duplicates allowed, and
every interleaving of the goroutines, if the call of `GetPriceFor` of every position has
returned a nil error, then `GetPricesFor` returns `(out, nil)` with `len(out) = len(itemCodes)`
and, at every position `i`, `out[i]` is the price that the call of `GetPriceFor` of position
`i` returned. -/
theorem GetPricesFor_order (c : TransparentCache) (w : World) (itemCodes : List String)
    (sched : List Nat)
    (hok : ∀ i, i < itemCodes.length →
      (unitReturn (finalState c w itemCodes sched) i).map Prod.snd = some none) :
    (GetPricesFor c w itemCodes sched).err = none ∧
    (GetPricesFor c w itemCodes sched).prices.length = itemCodes.length ∧
    ∀ i, i < itemCodes.length →
      ∃ p, unitReturn (finalState c w itemCodes sched) i = some (p, none) ∧
        (GetPricesFor c w itemCodes sched).prices[i]? = some p := by
  have hinv := Inv_final c w itemCodes sched
  have herr : (finalState c w itemCodes sched).shared.err = none := by
    cases hx : (finalState c w itemCodes sched).shared.err with
    | none => rfl
    | some x =>
      exfalso
      obtain ⟨i, p, hi⟩ := hinv.err_from x hx
      have hlt : i < itemCodes.length := by
        rw [← hinv.phases_length]
        rcases hi with hi | hi <;> exact (List.getElem?_eq_some.mp hi).1
      have := hok i hlt
      rcases hi with hi | hi <;> simp [unitReturn, hi, Phase.ret] at this
  have hout : GetPricesFor c w itemCodes sched =
      { prices := (finalState c w itemCodes sched).shared.results, err := none,
        cache := (finalState c w itemCodes sched).shared.cache,
        world := (finalState c w itemCodes sched).shared.world } := by
    simp only [GetPricesFor, herr]
  rw [hout]
  refine ⟨rfl, hinv.results_length, ?_⟩
  intro i hi
  obtain ⟨p, e, hd⟩ := finalState_done c w itemCodes sched i hi
  have hr := unitReturn_of_done _ i p e hd
  have := hok i hi
  rw [hr] at this
  simp only [Option.map_some', Option.some.injEq] at this
  subst this
  exact ⟨p, hr, hinv.results_done i p none hd⟩

theorem GetPricesFor_order_witness :
    (∀ i, i < ["A", "B", "A"].length →
      (unitReturn (finalState (NewTransparentCache svcAB 5) world0 ["A", "B", "A"]
        [2, 1, 0, 1, 2, 2, 1, 0, 2]) i).map Prod.snd = some none) ∧
    (GetPricesFor (NewTransparentCache svcAB 5) world0 ["A", "B", "A"]
      [2, 1, 0, 1, 2, 2, 1, 0, 2]).err = none ∧
    (GetPricesFor (NewTransparentCache svcAB 5) world0 ["A", "B", "A"]
      [2, 1, 0, 1, 2, 2, 1, 0, 2]).prices = [10, 20, 10] :=
  ⟨by decide,
    (GetPricesFor_order (NewTransparentCache svcAB 5) world0 ["A", "B", "A"]
      [2, 1, 0, 1, 2, 2, 1, 0, 2] (by decide)).1,
    by decide⟩

/-- C7 (batch all-or-nothing), evaluated on a failing input: the batch `["C", "A"]` on an
empty cache over `svcAB`, which fails for `"C"`.  The goroutine of `"C"` reads `err == nil`,
then the goroutine of `"A"` reads `err == nil`, then the first assigns its error to `err` and
the second assigns its nil `innerErr` over it: the call of `GetPriceFor` of position `0` has
returned an error, yet `GetPricesFor` returns the prices `[0, 10]` and a nil error. -/
theorem GetPricesFor_lost_error :
    unitReturn (finalState (NewTransparentCache svcAB 5) world0 ["C", "A"]
      [0, 0, 0, 1, 1, 1, 1, 1, 1, 0, 1]) 0 =
        some (0, some ⟨"getting price from service : unknown item"⟩) ∧
    (GetPricesFor (NewTransparentCache svcAB 5) world0 ["C", "A"]
      [0, 0, 0, 1, 1, 1, 1, 1, 1, 0, 1]).err = none ∧
    (GetPricesFor (NewTransparentCache svcAB 5) world0 ["C", "A"]
      [0, 0, 0, 1, 1, 1, 1, 1, 1, 0, 1]).prices = [0, 10] := by
  decide



/-- As long as the assignment `err = innerErr` of line 81 is one step, as it is in `unitStep`,
a non-nil error `x` returned by `GetPricesFor` is the error returned by the call of
`GetPriceFor` of some position `i`, the wrapped error of a failed call of the price service
for `itemCodes[i]` made during the batch.  The assignment of the code writes two words;
`stepW` tells what then happens. -/
theorem error_origin_of_one_step_assignment (c : TransparentCache) (w : World) (itemCodes : List String)
    (sched : List Nat) (x : GoError)
    (h : (GetPricesFor c w itemCodes sched).err = some x) :
    ∃ i, i < itemCodes.length ∧
      unitReturn (finalState c w itemCodes sched) i = some (0, some x) ∧
      ∃ code q e, itemCodes[i]? = some code ∧
        (⟨code, q, some e⟩ : ServiceCall) ∈ callsSince w (finalState c w itemCodes sched) ∧
        x = ⟨"getting price from service : " ++ e.msg⟩ := by
  have hinv := Inv_final c w itemCodes sched
  rw [GetPricesFor_err] at h
  obtain ⟨i, p, hi⟩ := hinv.err_from x h
  have hlt : i < itemCodes.length := by
    rw [← hinv.phases_length]
    rcases hi with hi | hi <;> exact (List.getElem?_eq_some.mp hi).1
  have hr : unitReturn (finalState c w itemCodes sched) i = some (p, some x) := by
    rcases hi with hi | hi <;> simp [unitReturn, hi, Phase.ret]
  obtain ⟨h0, code, q, e, hc, hmem, hx⟩ := hinv.return_err i p x hr
  subst h0
  exact ⟨i, hlt, hr, code, q, e, hc, hmem, hx⟩

theorem run_no_codes (sched : List Nat) (s : BatchState) : run [] s sched = s :=
  run_induction [] (fun t => t = s) (fun t i h => by simp [step, h]) sched s rfl

/-- C9 (empty batch): with no item codes `GetPricesFor` returns an empty price sequence and a
nil error, the price service receives no call, and the cache, its map `prices` included, and
the world are left as they were. -/
theorem GetPricesFor_empty (c : TransparentCache) (w : World) (sched : List Nat) :
    (GetPricesFor c w [] sched).prices = [] ∧
    (GetPricesFor c w [] sched).err = none ∧
    (GetPricesFor c w [] sched).world.calls = w.calls ∧
    (GetPricesFor c w [] sched).cache.prices = c.prices ∧
    (GetPricesFor c w [] sched).cache = c ∧
    (GetPricesFor c w [] sched).world = w := by
  have hfin : finalState c w [] sched = initBatch c w [] := by
    simp only [finalState, run_no_codes]
  simp [GetPricesFor, hfin, initBatch]



/-- C10 as stated fails: in the batch `["A", "A", "C"]` on an empty cache over `svcCount`,
with both goroutines of `"A"` looking `"A"` up before either stores, `GetPricesFor` returns an
error, the price service has answered `1` and then `2` for `"A"`, and the entry left for `"A"`
has price `2`: no entry holds the successfully fetched price `1`. -/
theorem GetPricesFor_overwritten_fetch :
    (GetPricesFor (NewTransparentCache svcCount 5) world0 ["A", "A", "C"] [0, 1]).err =
      some ⟨"getting price from service : unknown item"⟩ ∧
    (⟨"A", 1, none⟩ : ServiceCall) ∈
      callsSince world0 (finalState (NewTransparentCache svcCount 5) world0 ["A", "A", "C"]
        [0, 1]) ∧
    (GetPricesFor (NewTransparentCache svcCount 5) world0 ["A", "A", "C"] [0, 1]).cache.prices
      "A" = some ⟨101, 2⟩ ∧
    ¬ ∃ e, (GetPricesFor (NewTransparentCache svcCount 5) world0 ["A", "A", "C"]
      [0, 1]).cache.prices "A" = some e ∧ e.price = 1 := by
  refine ⟨by decide, by decide, by decide, ?_⟩
  rintro ⟨e, he, hp⟩
  have h2 : (GetPricesFor (NewTransparentCache svcCount 5) world0 ["A", "A", "C"]
      [0, 1]).cache.prices "A" = some ⟨101, 2⟩ := by decide
  rw [h2] at he
  cases he
  exact absurd hp (by decide)

theorem returnsUnder_done (c : TransparentCache) (w : World) (ids : List String)
    (sched : List Nat) (h : returnsUnder c w ids sched) (i : Nat) (hi : i < ids.length) :
    ∃ p e, (run ids (initBatch c w ids) sched).phases[i]? = some (Phase.done p e) := by
  have hr := h i hi
  cases hph : (run ids (initBatch c w ids) sched).phases[i]? with
  | none => rw [hph] at hr; cases hr
  | some ph =>
    rw [hph] at hr
    obtain ⟨p, e, hpe⟩ := rank_eq_zero ph (Option.some.inj hr)
    exact ⟨p, e, by rw [hpe]⟩

/-- When the call returns under `sched`, the state in which `wg.Wait()` returns is the one
the schedule leads to. -/
theorem finalState_of_returns (c : TransparentCache) (w : World) (ids : List String)
    (sched : List Nat) (h : returnsUnder c w ids sched) :
    finalState c w ids sched = run ids (initBatch c w ids) sched :=
  finalState_of_complete c w ids sched (returnsUnder_done c w ids sched h)

/-- C10, amended (a batch populates the cache and does not cancel): for every sequence of
item codes and every interleaving under which the call returns, whether or not a position
fails, every goroutine has run to its end, its call of `GetPriceFor` having returned; and for
every call of the price service made during the batch that succeeded, for item code `k` with
price `p`, `prices` holds afterwards an entry for `k` whose price is that of a call of the
price service for `k` that succeeded during the batch, hence `p` itself when every such call
answered `p`; a later `GetPriceFor(k)` made within `maxAge` of that entry's timestamp returns
the entry's price with a nil error and the price service receives no call. -/
theorem GetPricesFor_populates (c : TransparentCache) (w : World) (itemCodes : List String)
    (sched : List Nat) (hret : returnsUnder c w itemCodes sched) :
    (∀ i, i < itemCodes.length →
      ∃ p e, unitReturn (finalState c w itemCodes sched) i = some (p, e)) ∧
    ∀ (k : String) (p : Price),
      (⟨k, p, none⟩ : ServiceCall) ∈ callsSince w (finalState c w itemCodes sched) →
      ∃ e, (GetPricesFor c w itemCodes sched).cache.prices k = some e ∧
        (⟨k, e.price, none⟩ : ServiceCall) ∈ callsSince w (finalState c w itemCodes sched) ∧
        ((∀ q, (⟨k, q, none⟩ : ServiceCall) ∈
            callsSince w (finalState c w itemCodes sched) → q = p) → e.price = p) ∧
        ∀ w2 : World, Sub w2.now e.time < c.maxAge →
          (GetPriceFor (GetPricesFor c w itemCodes sched).cache w2 k).price = e.price ∧
          (GetPriceFor (GetPricesFor c w itemCodes sched).cache w2 k).err = none ∧
          (GetPriceFor (GetPricesFor c w itemCodes sched).cache w2 k).world.calls =
            w2.calls := by
  have hinv := Inv_final c w itemCodes sched
  have hdone : ∀ i, i < itemCodes.length →
      ∃ p e, (finalState c w itemCodes sched).phases[i]? = some (Phase.done p e) := by
    rw [finalState_of_returns c w itemCodes sched hret]
    exact returnsUnder_done c w itemCodes sched hret
  constructor
  · intro i hi
    obtain ⟨p, e, hd⟩ := hdone i hi
    exact ⟨p, e, unitReturn_of_done _ i p e hd⟩
  intro k p hk
  rcases hinv.stored k p hk with ⟨i, q, hic, hip⟩ | ⟨e, he, hmem⟩
  · exfalso
    have hlt : i < itemCodes.length := (List.getElem?_eq_some.mp hic).1
    obtain ⟨p', e', hd⟩ := hdone i hlt
    rw [hd] at hip
    simp [Phase.pending] at hip
  · rw [GetPricesFor_cache]
    refine ⟨e, he, hmem, fun hall => hall _ hmem, ?_⟩
    intro w2 hage
    have hfresh := GetPriceFor_fresh (finalState c w itemCodes sched).shared.cache w2 k e he
      (by rw [hinv.maxAge]; exact hage)
    rw [hfresh]
    exact ⟨rfl, rfl, rfl⟩

theorem GetPricesFor_populates_witness :
    returnsUnder (NewTransparentCache svcCount 5) world0 ["A", "A", "C"] ([0, 1] ++ drain 3) ∧
    ∀ i, i < ["A", "A", "C"].length →
      ∃ p e, unitReturn (finalState (NewTransparentCache svcCount 5) world0 ["A", "A", "C"]
        ([0, 1] ++ drain 3)) i = some (p, e) :=
  have hret : returnsUnder (NewTransparentCache svcCount 5) world0 ["A", "A", "C"]
      ([0, 1] ++ drain 3) := by
    unfold returnsUnder
    decide
  ⟨hret, (GetPricesFor_populates (NewTransparentCache svcCount 5) world0 ["A", "A", "C"]
    ([0, 1] ++ drain 3) hret).1⟩

/-! ## Batches over a price service with fixed answers -/

theorem unitStep_agrees (itemCodes : List String) (f : String → Price) (s : BatchState)
    (h : DetInv itemCodes f s) (code : String) (hmem : code ∈ itemCodes) (i : Nat) (ph : Phase)
    (hph : ph.agrees (f code)) :
    (unitStep code i s.shared ph).2.agrees (f code) ∧
    (unitStep code i s.shared ph).1.err = none ∧
    (∀ k e, k ∈ itemCodes → (unitStep code i s.shared ph).1.cache.prices k = some e →
      e.price = f k) := by
  have hs := h.service s.shared.world.calls code hmem
  have herr := h.err
  have hent := h.entries
  cases ph with
  | start =>
    simp only [unitStep]
    cases hc : s.shared.cache.prices code with
    | none => exact ⟨trivial, herr, hent⟩
    | some cp => exact ⟨hent code cp hmem hc, herr, hent⟩
  | checking cp =>
    simp only [unitStep]
    split_ifs
    · exact ⟨⟨hph, rfl⟩, herr, hent⟩
    · exact ⟨trivial, herr, hent⟩
  | fetching =>
    simp only [unitStep, World.answer, hs]
    exact ⟨rfl, herr, hent⟩
  | locking p => exact ⟨hph, herr, hent⟩
  | stamping p m => exact ⟨hph, herr, hent⟩
  | storing p t m =>
    simp only [unitStep]
    refine ⟨⟨hph, rfl⟩, herr, ?_⟩
    intro k e hk he
    by_cases hkc : k = code
    · subst hkc
      rw [mapSet_same] at he
      cases he
      exact hph
    · rw [mapSet_other _ _ _ _ hkc] at he
      exact hent k e hk he
  | returned p e =>
    have hst : unitStep code i s.shared (Phase.returned p e) = (s.shared, Phase.setting p e) := by
      simp only [unitStep, herr]
    rw [hst]
    exact ⟨hph, herr, hent⟩
  | setting p e =>
    simp only [unitStep]
    exact ⟨hph, hph.2, hent⟩
  | writing p e => exact ⟨hph, herr, hent⟩
  | done p e => exact ⟨hph, herr, hent⟩

theorem DetInv_step (itemCodes : List String) (f : String → Price) (s : BatchState) (i : Nat)
    (h : DetInv itemCodes f s) : DetInv itemCodes f (step itemCodes s i) := by
  rcases step_cases itemCodes s i with h' | ⟨code, ph, hc, hp, h'⟩
  · rw [h']; exact h
  · rw [h']
    have hi : i < s.phases.length := (List.getElem?_eq_some.mp hp).1
    have hmem : code ∈ itemCodes := List.getElem?_mem hc
    obtain ⟨h1, h2, h3⟩ := unitStep_agrees itemCodes f s h code hmem i ph (h.phases i code ph hc hp)
    refine ⟨?_, h3, h2, ?_⟩
    · intro calls k hk
      show (unitStep code i s.shared ph).1.cache.actualPriceService.GetPriceFor calls k = _
      rw [unitStep_service]
      exact h.service calls k hk
    · intro j code' ph' hc' hp'
      by_cases hji : j = i
      · subst hji
        rw [hc] at hc'
        cases hc'
        simp only [List.getElem?_set_self hi, Option.some.injEq] at hp'
        rw [← hp']
        exact h1
      · simp only [List.getElem?_set_ne (Ne.symm hji)] at hp'
        exact h.phases j code' ph' hc' hp'

theorem DetInv_init (svc : PriceService) (maxAge : Duration) (w : World)
    (itemCodes : List String) (f : String → Price)
    (hsvc : ∀ calls code, code ∈ itemCodes → svc.GetPriceFor calls code = (f code, none)) :
    DetInv itemCodes f (initBatch (NewTransparentCache svc maxAge) w itemCodes) where
  service := hsvc
  entries := by intro code e _ he; simp [initBatch, NewTransparentCache] at he
  err := rfl
  phases := by
    intro i code ph _ hp
    simp only [initBatch, List.getElem?_replicate] at hp
    split at hp
    · cases hp; trivial
    · cases hp

/-- With a price service that answers `(f code, nil)` for every item code of the batch,
`GetPricesFor` on a new cache returns the prices `f code`, position by position, and a nil
error, under every schedule. -/
theorem GetPricesFor_deterministic (svc : PriceService) (maxAge : Duration) (w : World)
    (itemCodes : List String) (f : String → Price) (sched : List Nat)
    (hsvc : ∀ calls code, code ∈ itemCodes → svc.GetPriceFor calls code = (f code, none)) :
    (GetPricesFor (NewTransparentCache svc maxAge) w itemCodes sched).err = none ∧
    (GetPricesFor (NewTransparentCache svc maxAge) w itemCodes sched).prices =
      itemCodes.map f := by
  have hdet : DetInv itemCodes f (finalState (NewTransparentCache svc maxAge) w itemCodes sched) :=
    run_induction itemCodes (DetInv itemCodes f) (fun s i h => DetInv_step itemCodes f s i h) _ _
      (run_induction itemCodes (DetInv itemCodes f) (fun s i h => DetInv_step itemCodes f s i h)
        _ _ (DetInv_init svc maxAge w itemCodes f hsvc))
  have hinv := Inv_final (NewTransparentCache svc maxAge) w itemCodes sched
  have herr := hdet.err
  have hout : GetPricesFor (NewTransparentCache svc maxAge) w itemCodes sched =
      { prices := (finalState (NewTransparentCache svc maxAge) w itemCodes sched).shared.results,
        err := none,
        cache := (finalState (NewTransparentCache svc maxAge) w itemCodes sched).shared.cache,
        world := (finalState (NewTransparentCache svc maxAge) w itemCodes sched).shared.world } := by
    simp only [GetPricesFor, herr]
  rw [hout]
  refine ⟨rfl, ?_⟩
  apply List.ext_getElem?
  intro i
  by_cases hi : i < itemCodes.length
  · obtain ⟨p, e, hd⟩ := finalState_done (NewTransparentCache svc maxAge) w itemCodes sched i hi
    have hag := hdet.phases i itemCodes[i] _ (List.getElem?_eq_getElem hi) hd
    rw [hinv.results_done i p e hd, List.getElem?_map, List.getElem?_eq_getElem hi]
    simp only [Option.map_some', Option.some.injEq]
    exact hag.1
  · rw [List.getElem?_eq_none (by rw [hinv.results_length]; omega),
      List.getElem?_eq_none (by rw [List.length_map]; omega)]

/-! ## Batches whose goroutines run one after the other -/

theorem run_replicate_done (ids : List String) (i : Nat) (p : Price) (e : Option GoError)
    (m : Nat) (s : BatchState) (h : s.phases[i]? = some (Phase.done p e)) :
    run ids s (List.replicate m i) = s := by
  induction m with
  | zero => rfl
  | succ m ih => rw [List.replicate_succ, run_cons, step_of_done ids s i p e h, ih]

theorem run_replicate_no_code (ids : List String) (i : Nat) (m : Nat) (s : BatchState)
    (h : ids[i]? = none) : run ids s (List.replicate m i) = s := by
  induction m with
  | zero => rfl
  | succ m ih =>
    have hs : step ids s i = s := by simp [step, h]
    rw [List.replicate_succ, run_cons, hs, ih]

/-- A goroutine that runs from its start to its end without interference does what lines
79-85 say with the call of `GetPriceFor` run as a whole. -/
theorem run_unit_start (ids : List String) (s : BatchState) (i : Nat) (code : String)
    (hc : ids[i]? = some code) (hp : s.phases[i]? = some Phase.start) :
    (run ids s (List.replicate 9 i)).phases =
      s.phases.set i (Phase.done (GetPriceFor s.shared.cache s.shared.world code).price
        (GetPriceFor s.shared.cache s.shared.world code).err) ∧
    (run ids s (List.replicate 9 i)).shared.cache =
      (GetPriceFor s.shared.cache s.shared.world code).cache ∧
    (run ids s (List.replicate 9 i)).shared.world =
      (GetPriceFor s.shared.cache s.shared.world code).world ∧
    (run ids s (List.replicate 9 i)).shared.err =
      (match s.shared.err with
        | none => (GetPriceFor s.shared.cache s.shared.world code).err
        | some x => some x) ∧
    (run ids s (List.replicate 9 i)).shared.results =
      s.shared.results.set i (GetPriceFor s.shared.cache s.shared.world code).price := by
  have hi : i < s.phases.length := (List.getElem?_eq_some.mp hp).1
  obtain ⟨k, hk, hph, hcache, hworld, herr, hres⟩ := unit_refines_GetPriceFor ids s i code hc hp
  have hsplit : List.replicate 9 i =
      List.replicate k i ++ (List.replicate 3 i ++ List.replicate (6 - k) i) := by
    rw [← List.replicate_add, ← List.replicate_add]
    congr 1
    omega
  rw [hsplit, run_append, run_append]
  generalize run ids s (List.replicate k i) = s1 at hph hcache hworld herr hres
  generalize GetPriceFor s.shared.cache s.shared.world code = out at hph hcache hworld ⊢
  have hs1 : s1 = BatchState.mk s1.shared (s.phases.set i (Phase.returned out.price out.err)) := by
    rw [← hph]
  have hdone : ∀ (s3 : BatchState) p e, s3.phases = s.phases.set i (Phase.done p e) →
      run ids s3 (List.replicate (6 - k) i) = s3 := by
    intro s3 p e h3
    apply run_replicate_done ids i p e
    rw [h3]
    exact List.getElem?_set_self hi
  cases he : s.shared.err with
  | none =>
    have h3 : run ids s1 (List.replicate 3 i) =
        BatchState.mk { s1.shared with err := out.err, results := s1.shared.results.set i out.price }
          (s.phases.set i (Phase.done out.price out.err)) := by
      rw [hs1]
      simp [List.replicate, run, step_set ids _ _ i code _ hc hi, unitStep, herr, he]
    rw [h3, hdone _ _ _ rfl]
    simp [hcache, hworld, hres]
  | some x =>
    have h3 : run ids s1 (List.replicate 3 i) =
        BatchState.mk { s1.shared with results := s1.shared.results.set i out.price }
          (s.phases.set i (Phase.done out.price out.err)) := by
      rw [hs1]
      simp [List.replicate, run, step_set ids _ _ i code _ hc hi, unitStep, herr, he]
    rw [h3, hdone _ _ _ rfl]
    simp [hcache, hworld, hres, herr, he]

theorem seqSched_append (l1 l2 : List Nat) : seqSched (l1 ++ l2) = seqSched l1 ++ seqSched l2 := by
  induction l1 with
  | nil => rfl
  | cons i rest ih => simp [seqSched, ih]

theorem drain_eq_seqSched (n : Nat) : drain n = seqSched (List.range n) := by
  induction n with
  | zero => rfl
  | succ n ih => rw [drain, ih, List.range_succ, seqSched_append]; simp [seqSched]

theorem finalState_seqSched (c : TransparentCache) (w : World) (ids : List String)
    (order : List Nat) :
    finalState c w ids (seqSched order) =
      run ids (initBatch c w ids) (seqSched (order ++ List.range ids.length)) := by
  rw [finalState, drain_eq_seqSched, seqSched_append, run_append]

theorem unitStep_ticks (code : String) (i : Nat) (sh : Shared) (ph : Phase) :
    sh.world.ticks ≤ (unitStep code i sh ph).1.world.ticks := by
  cases ph <;> simp only [unitStep] <;> (try split) <;> simp [World.tick, World.call]

theorem step_ticks (ids : List String) (s : BatchState) (i : Nat) :
    s.shared.world.ticks ≤ (step ids s i).shared.world.ticks := by
  rcases step_cases ids s i with h | ⟨code, ph, -, -, h⟩ <;> rw [h]
  exact unitStep_ticks code i s.shared ph

theorem run_ticks (ids : List String) (sched : List Nat) (s : BatchState) :
    s.shared.world.ticks ≤ (run ids s sched).shared.world.ticks :=
  run_induction ids (fun t => s.shared.world.ticks ≤ t.shared.world.ticks)
    (fun t i h => le_trans h (step_ticks ids t i)) sched s (le_refl _)

theorem callsSince_of_calls_eq (w0 : World) (s s' : BatchState)
    (h : s'.shared.world.calls = s.shared.world.calls) : callsSince w0 s' = callsSince w0 s := by
  simp only [callsSince, h]

theorem callsSince_of_calls_append (w0 : World) (s s' : BatchState) (x : ServiceCall)
    (hcalls : ∃ l, s.shared.world.calls = w0.calls ++ l)
    (h : s'.shared.world.calls = s.shared.world.calls ++ [x]) :
    callsSince w0 s' = callsSince w0 s ++ [x] := by
  obtain ⟨l, hl⟩ := hcalls
  simp only [callsSince, h, hl, List.append_assoc, List.drop_left]

/-- The three ways a call of `GetPriceFor` can go. -/
theorem GetPriceFor_cases (c : TransparentCache) (w : World) (code : String) :
    (∃ e, c.prices code = some e ∧ Sub w.now e.time < c.maxAge ∧
      GetPriceFor c w code = { price := e.price, err := none, cache := c, world := w.tick }) ∨
    (noFresh c w code ∧
      ∃ x, ((atFetch c w code).answer c.actualPriceService code).2 = some x ∧
        GetPriceFor c w code =
          { price := 0, err := some (wrapErr x), cache := c,
            world := (atFetch c w code).call c.actualPriceService code }) ∨
    (noFresh c w code ∧
      ((atFetch c w code).answer c.actualPriceService code).2 = none ∧
      GetPriceFor c w code =
        { price := ((atFetch c w code).answer c.actualPriceService code).1, err := none,
          cache := { c with
            prices := mapSet c.prices code
              ⟨(atFetch c w code).now, ((atFetch c w code).answer c.actualPriceService code).1⟩ },
          world := ((atFetch c w code).call c.actualPriceService code).tick }) := by
  by_cases hnf : noFresh c w code
  · right
    rw [GetPriceFor_noFresh c w code hnf]
    cases hx : ((atFetch c w code).answer c.actualPriceService code).2 with
    | some x => exact Or.inl ⟨hnf, x, rfl, fetchAndStore_fail c _ code x hx⟩
    | none => exact Or.inr ⟨hnf, rfl, fetchAndStore_ok c _ code hx⟩
  · left
    unfold noFresh at hnf
    push_neg at hnf
    cases he : c.prices code with
    | none => exact absurd he hnf.1
    | some e => exact ⟨e, rfl, hnf.2 e he, GetPriceFor_fresh c w code e he (hnf.2 e he)⟩

theorem successesFor_append_other (k : String) (l : List ServiceCall) (x : ServiceCall)
    (h : ¬ (x.itemCode = k ∧ x.err = none)) :
    successesFor k (l ++ [x]) = successesFor k l := by
  simp [successesFor, List.countP_append, List.countP_cons, h]

theorem successesFor_append_same (k : String) (l : List ServiceCall) (x : ServiceCall)
    (h : x.itemCode = k ∧ x.err = none) :
    successesFor k (l ++ [x]) = successesFor k l + 1 := by
  simp [successesFor, List.countP_append, List.countP_cons, h]

/-- The sequential invariant is kept when a goroutine runs from its start to its end. -/
theorem SeqInv_unit_start (ids : List String) (c0 : TransparentCache) (w0 : World)
    (bound : Nat) (s : BatchState) (i : Nat) (code : String)
    (hwin : ∀ n m, w0.ticks ≤ n → n ≤ m → m < bound →
      Sub (w0.clock m) (w0.clock n) < c0.maxAge)
    (hinv : Inv ids c0 w0 s) (hseq : SeqInv ids w0 bound s)
    (hc : ids[i]? = some code) (hp : s.phases[i]? = some Phase.start)
    (hb : (run ids s (List.replicate 9 i)).shared.world.ticks ≤ bound) :
    SeqInv ids w0 bound (run ids s (List.replicate 9 i)) := by
  have hi : i < s.phases.length := (List.getElem?_eq_some.mp hp).1
  obtain ⟨hph, hcache, hworld, herr, -⟩ := run_unit_start ids s i code hc hp
  generalize run ids s (List.replicate 9 i) = s' at hph hcache hworld herr hb ⊢
  -- the phases of the other goroutines are unchanged
  have hother : ∀ j, j ≠ i → s'.phases[j]? = s.phases[j]? := by
    intro j hj
    rw [hph, List.getElem?_set_ne (Ne.symm hj)]
  have hself : s'.phases[i]? = some (Phase.done
      (GetPriceFor s.shared.cache s.shared.world code).price
      (GetPriceFor s.shared.cache s.shared.world code).err) := by
    rw [hph, List.getElem?_set_self hi]
  have hquiet : ∀ (j : Nat) (ph : Phase), s'.phases[j]? = some ph →
      ph = Phase.start ∨ ∃ p e, ph = Phase.done p e := by
    intro j ph hj
    by_cases hji : j = i
    · subst hji
      rw [hself] at hj
      exact Or.inr ⟨_, _, (Option.some.inj hj).symm⟩
    · rw [hother j hji] at hj
      exact hseq.quiescent j ph hj
  -- an entry that is present is fresh
  have hfresh : ∀ e, s.shared.cache.prices code = some e →
      s.shared.world.ticks < bound → Sub s.shared.world.now e.time < s.shared.cache.maxAge := by
    intro e he hlt
    obtain ⟨n, h1, h2, h3⟩ := hseq.stamped code e he
    rw [hinv.maxAge, h3, World.now, hinv.clock]
    exact hwin n _ h1 (le_of_lt h2) hlt
  rcases GetPriceFor_cases s.shared.cache s.shared.world code with
    ⟨e, he, -, hout⟩ | ⟨hnf, x, hx, hout⟩ | ⟨hnf, hx, hout⟩
  · -- served from the entry
    rw [hout] at hcache hworld herr hself
    have hcs : callsSince w0 s' = callsSince w0 s :=
      callsSince_of_calls_eq w0 s s' (by rw [hworld]; rfl)
    have herr' : s'.shared.err = s.shared.err := by
      rw [herr]; cases s.shared.err <;> rfl
    refine ⟨hquiet, ?_, ?_, ?_, ?_, ?_, ?_, ?_⟩
    · rw [hworld]; exact le_trans hseq.ticks_ge (Nat.le_succ _)
    · intro k e' hk
      rw [hcache] at hk
      obtain ⟨n, h1, h2, h3⟩ := hseq.stamped k e' hk
      exact ⟨n, h1, by rw [hworld]; exact Nat.lt_succ_of_lt h2, h3⟩
    · intro k; rw [hcs]; exact hseq.once k
    · intro k hk; rw [hcs]; rw [hcache] at hk; exact hseq.absent k hk
    · intro j p code' hj hcj
      rw [hcache]
      by_cases hji : j = i
      · subst hji
        rw [hself] at hj
        rw [hc] at hcj
        cases hcj
        simp only [Option.some.injEq, Phase.done.injEq] at hj
        exact ⟨e, he, hj.1⟩
      · rw [hother j hji] at hj
        exact hseq.same j p code' hj hcj
    · intro hn j p e' hj
      rw [herr'] at hn
      by_cases hji : j = i
      · subst hji
        rw [hself] at hj
        simp only [Option.some.injEq, Phase.done.injEq] at hj
        exact hj.2.symm
      · rw [hother j hji] at hj
        exact hseq.err_none hn j p e' hj
    · intro call hcall hne
      rw [hcs] at hcall
      rw [herr']
      exact hseq.failed call hcall hne
  · -- the price service fails
    have habs : s.shared.cache.prices code = none := by
      rcases hnf with h | ⟨e, he, hage⟩
      · exact h
      · exfalso
        have hlt : s.shared.world.ticks < bound := by
          have : (atFetch s.shared.cache s.shared.world code) = s.shared.world.tick := by
            simp [atFetch, he]
          rw [hout, this] at hworld
          rw [hworld] at hb
          exact (Nat.lt_succ_self _).trans_le hb
        exact absurd (hfresh e he hlt) (not_lt.mpr hage)
    have hat : atFetch s.shared.cache s.shared.world code = s.shared.world := by
      simp [atFetch, habs]
    rw [hat] at hx hout
    rw [hout] at hcache hworld herr hself
    have hcs := callsSince_of_calls_append w0 s s' _ hinv.calls (by rw [hworld]; rfl)
    rw [hx] at hcs
    have hsucc : ∀ k, successesFor k (callsSince w0 s') = successesFor k (callsSince w0 s) := by
      intro k
      rw [hcs]
      exact successesFor_append_other k _ _ (by simp)
    have herr' : s'.shared.err ≠ none := by
      rw [herr]; cases s.shared.err <;> simp
    refine ⟨hquiet, ?_, ?_, ?_, ?_, ?_, ?_, ?_⟩
    · rw [hworld]; exact hseq.ticks_ge
    · intro k e' hk
      rw [hcache] at hk
      obtain ⟨n, h1, h2, h3⟩ := hseq.stamped k e' hk
      exact ⟨n, h1, by rw [hworld]; exact h2, h3⟩
    · intro k; rw [hsucc]; exact hseq.once k
    · intro k hk; rw [hsucc]; rw [hcache] at hk; exact hseq.absent k hk
    · intro j p code' hj hcj
      rw [hcache]
      by_cases hji : j = i
      · subst hji
        rw [hself] at hj
        simp at hj
      · rw [hother j hji] at hj
        exact hseq.same j p code' hj hcj
    · intro hn; exact absurd hn herr'
    · intro _ _ _; exact herr'
  · -- the price service answers and the price is stored
    have habs : s.shared.cache.prices code = none := by
      rcases hnf with h | ⟨e, he, hage⟩
      · exact h
      · exfalso
        have hlt : s.shared.world.ticks < bound := by
          have : (atFetch s.shared.cache s.shared.world code) = s.shared.world.tick := by
            simp [atFetch, he]
          rw [hout, this] at hworld
          rw [hworld] at hb
          exact lt_of_lt_of_le (Nat.lt_succ_of_lt (Nat.lt_succ_self _)) hb
        exact absurd (hfresh e he hlt) (not_lt.mpr hage)
    have hat : atFetch s.shared.cache s.shared.world code = s.shared.world := by
      simp [atFetch, habs]
    rw [hat] at hx hout
    rw [hout] at hcache hworld herr hself
    have hcs := callsSince_of_calls_append w0 s s' _ hinv.calls (by rw [hworld]; rfl)
    rw [hx] at hcs
    have hprices : ∀ k, k ≠ code → s'.shared.cache.prices k = s.shared.cache.prices k := by
      intro k hk; rw [hcache]; exact mapSet_other _ _ _ _ hk
    have hprice_code : s'.shared.cache.prices code =
        some ⟨s.shared.world.now,
          (s.shared.world.answer s.shared.cache.actualPriceService code).1⟩ := by
      rw [hcache]; exact mapSet_same _ _ _
    have herr' : s'.shared.err = s.shared.err := by
      rw [herr]; cases s.shared.err <;> rfl
    refine ⟨hquiet, ?_, ?_, ?_, ?_, ?_, ?_, ?_⟩
    · rw [hworld]; exact le_trans hseq.ticks_ge (Nat.le_succ _)
    · intro k e' hk
      by_cases hkc : k = code
      · subst hkc
        rw [hprice_code] at hk
        cases hk
        exact ⟨s.shared.world.ticks, hseq.ticks_ge, by rw [hworld]; exact Nat.lt_succ_self _,
          by rw [← hinv.clock]; rfl⟩
      · rw [hprices k hkc] at hk
        obtain ⟨n, h1, h2, h3⟩ := hseq.stamped k e' hk
        exact ⟨n, h1, by rw [hworld]; exact Nat.lt_succ_of_lt h2, h3⟩
    · intro k
      rw [hcs]
      by_cases hkc : code = k
      · subst hkc
        rw [successesFor_append_same code (callsSince w0 s) _ ⟨rfl, rfl⟩,
          hseq.absent code habs]
      · rw [successesFor_append_other k _ _ (by simp [hkc])]
        exact hseq.once k
    · intro k hk
      have hkc : k ≠ code := by
        intro h; subst h; rw [hprice_code] at hk; cases hk
      rw [hprices k hkc] at hk
      rw [hcs, successesFor_append_other k _ _ (by simp [Ne.symm hkc])]
      exact hseq.absent k hk
    · intro j p code' hj hcj
      by_cases hji : j = i
      · subst hji
        rw [hself] at hj
        rw [hc] at hcj
        cases hcj
        simp only [Option.some.injEq, Phase.done.injEq] at hj
        exact ⟨_, hprice_code, hj.1⟩
      · rw [hother j hji] at hj
        obtain ⟨e', he', hpe⟩ := hseq.same j p code' hj hcj
        have hne : code' ≠ code := by
          intro h; subst h; rw [habs] at he'; cases he'
        exact ⟨e', by rw [hprices code' hne]; exact he', hpe⟩
    · intro hn j p e' hj
      rw [herr'] at hn
      by_cases hji : j = i
      · subst hji
        rw [hself] at hj
        simp only [Option.some.injEq, Phase.done.injEq] at hj
        exact hj.2.symm
      · rw [hother j hji] at hj
        exact hseq.err_none hn j p e' hj
    · intro call hcall hne
      rw [hcs] at hcall
      rw [herr']
      rcases List.mem_append.mp hcall with hold | hnew
      · exact hseq.failed call hold hne
      · rw [List.mem_singleton.mp hnew] at hne
        exact absurd rfl hne

theorem SeqInv_unit (ids : List String) (c0 : TransparentCache) (w0 : World)
    (bound : Nat) (s : BatchState) (i : Nat)
    (hwin : ∀ n m, w0.ticks ≤ n → n ≤ m → m < bound →
      Sub (w0.clock m) (w0.clock n) < c0.maxAge)
    (hinv : Inv ids c0 w0 s) (hseq : SeqInv ids w0 bound s)
    (hb : (run ids s (List.replicate 9 i)).shared.world.ticks ≤ bound) :
    SeqInv ids w0 bound (run ids s (List.replicate 9 i)) := by
  cases hc : ids[i]? with
  | none => rw [run_replicate_no_code ids i 9 s hc]; exact hseq
  | some code =>
    have hi : i < s.phases.length := by
      rw [hinv.phases_length]; exact (List.getElem?_eq_some.mp hc).1
    rcases hseq.quiescent i _ (List.getElem?_eq_getElem hi) with hst | ⟨p, e, hd⟩
    · exact SeqInv_unit_start ids c0 w0 bound s i code hwin hinv hseq hc
        (by rw [List.getElem?_eq_getElem hi, hst]) hb
    · rw [run_replicate_done ids i p e 9 s (by rw [List.getElem?_eq_getElem hi, hd])]
      exact hseq

theorem SeqInv_seq (ids : List String) (c0 : TransparentCache) (w0 : World) (bound : Nat)
    (hwin : ∀ n m, w0.ticks ≤ n → n ≤ m → m < bound →
      Sub (w0.clock m) (w0.clock n) < c0.maxAge)
    (order : List Nat) :
    ∀ s : BatchState, Inv ids c0 w0 s → SeqInv ids w0 bound s →
      (run ids s (seqSched order)).shared.world.ticks ≤ bound →
      SeqInv ids w0 bound (run ids s (seqSched order)) := by
  induction order with
  | nil => intro s _ hseq _; exact hseq
  | cons i rest ih =>
    intro s hinv hseq hb
    rw [seqSched, run_append] at hb ⊢
    have hb1 : (run ids s (List.replicate 9 i)).shared.world.ticks ≤ bound :=
      le_trans (run_ticks ids (seqSched rest) _) hb
    exact ih _ (Inv_run ids c0 w0 _ s hinv)
      (SeqInv_unit ids c0 w0 bound s i hwin hinv hseq hb1) hb

theorem callsSince_init (c : TransparentCache) (w : World) (ids : List String) :
    callsSince w (initBatch c w ids) = [] := by
  simp [callsSince, initBatch]

theorem SeqInv_init (svc : PriceService) (maxAge : Duration) (w : World) (ids : List String)
    (bound : Nat) : SeqInv ids w bound (initBatch (NewTransparentCache svc maxAge) w ids) where
  quiescent := by
    intro i ph h
    simp only [initBatch, List.getElem?_replicate] at h
    split at h
    · exact Or.inl (Option.some.inj h).symm
    · cases h
  ticks_ge := le_refl _
  stamped := by intro k e h; simp [initBatch, NewTransparentCache] at h
  once := by intro k; rw [callsSince_init]; simp [successesFor]
  absent := by intro k _; rw [callsSince_init]; simp [successesFor]
  same := by
    intro i p code h _
    simp only [initBatch, List.getElem?_replicate] at h
    split at h <;> simp at h
  err_none := by
    intro _ i p e h
    simp only [initBatch, List.getElem?_replicate] at h
    split at h <;> simp at h
  failed := by intro call h; rw [callsSince_init] at h; cases h

/-- When the goroutines of a batch on a new cache run one after the other and the readings
of the clock made during the batch fall within `maxAge` of the earlier ones, the sequential
invariant holds when `wg.Wait()` returns. -/
theorem SeqInv_final (svc : PriceService) (maxAge : Duration) (w : World) (ids : List String)
    (order : List Nat)
    (hwin : ∀ n m, w.ticks ≤ n → n ≤ m →
      m < (finalState (NewTransparentCache svc maxAge) w ids
        (seqSched order)).shared.world.ticks →
      Sub (w.clock m) (w.clock n) < maxAge) :
    SeqInv ids w
      (finalState (NewTransparentCache svc maxAge) w ids (seqSched order)).shared.world.ticks
      (finalState (NewTransparentCache svc maxAge) w ids (seqSched order)) := by
  have h := SeqInv_seq ids (NewTransparentCache svc maxAge) w
    (finalState (NewTransparentCache svc maxAge) w ids (seqSched order)).shared.world.ticks
    hwin (order ++ List.range ids.length) _ (Inv_init _ w ids)
    (SeqInv_init svc maxAge w ids _)
  rw [← finalState_seqSched] at h
  exact h (le_refl _)

theorem callsFor_eq_successesFor (k : String) (l : List ServiceCall)
    (h : ∀ call ∈ l, call.err = none) : callsFor k l = successesFor k l := by
  unfold callsFor successesFor
  apply List.countP_congr
  intro call hcall
  simp [h call hcall]

/-- Sequential batches on a new cache: at most one successful call of the price service per
item code; and when the batch returns a nil error, at most one call per item code and the
same price at the positions that hold the same item code. -/
theorem GetPricesFor_sequential (svc : PriceService) (maxAge : Duration) (w : World)
    (ids : List String) (order : List Nat)
    (hwin : ∀ n m, w.ticks ≤ n → n ≤ m →
      m < (finalState (NewTransparentCache svc maxAge) w ids
        (seqSched order)).shared.world.ticks →
      Sub (w.clock m) (w.clock n) < maxAge) :
    (∀ k, successesFor k
      (callsSince w (finalState (NewTransparentCache svc maxAge) w ids (seqSched order))) ≤ 1) ∧
    ((GetPricesFor (NewTransparentCache svc maxAge) w ids (seqSched order)).err = none →
      (∀ k, callsFor k
        (callsSince w (finalState (NewTransparentCache svc maxAge) w ids (seqSched order))) ≤ 1) ∧
      ∀ (i j : Nat) (code : String), ids[i]? = some code → ids[j]? = some code →
        (GetPricesFor (NewTransparentCache svc maxAge) w ids (seqSched order)).prices[i]? =
          (GetPricesFor (NewTransparentCache svc maxAge) w ids (seqSched order)).prices[j]?) := by
  have hseq := SeqInv_final svc maxAge w ids order hwin
  have hinv := Inv_final (NewTransparentCache svc maxAge) w ids (seqSched order)
  refine ⟨hseq.once, ?_⟩
  intro herr
  rw [GetPricesFor_err] at herr
  have hout : GetPricesFor (NewTransparentCache svc maxAge) w ids (seqSched order) =
      BatchOutcome.mk
        (finalState (NewTransparentCache svc maxAge) w ids (seqSched order)).shared.results none
        (finalState (NewTransparentCache svc maxAge) w ids (seqSched order)).shared.cache
        (finalState (NewTransparentCache svc maxAge) w ids (seqSched order)).shared.world := by
    simp only [GetPricesFor, herr]
  constructor
  · intro k
    rw [callsFor_eq_successesFor k _ (fun call hcall => by
      by_contra hne
      exact hseq.failed call hcall hne herr)]
    exact hseq.once k
  · intro i j code hi hj
    rw [hout]
    have hilt : i < ids.length := (List.getElem?_eq_some.mp hi).1
    have hjlt : j < ids.length := (List.getElem?_eq_some.mp hj).1
    obtain ⟨p, e, hdi⟩ := finalState_done (NewTransparentCache svc maxAge) w ids
      (seqSched order) i hilt
    obtain ⟨q, e', hdj⟩ := finalState_done (NewTransparentCache svc maxAge) w ids
      (seqSched order) j hjlt
    have hei := hseq.err_none herr i p e hdi
    have hej := hseq.err_none herr j q e' hdj
    subst hei hej
    obtain ⟨e1, he1, hp1⟩ := hseq.same i p code hdi hi
    obtain ⟨e2, he2, hp2⟩ := hseq.same j q code hdj hj
    rw [he1] at he2
    cases he2
    show (finalState (NewTransparentCache svc maxAge) w ids (seqSched order)).shared.results[i]? =
      (finalState (NewTransparentCache svc maxAge) w ids (seqSched order)).shared.results[j]?
    rw [hinv.results_done i p none hdi, hinv.results_done j q none hdj, ← hp1, ← hp2]

/-! ## Duplicated item codes -/

/-- C11 as stated fails for an item code whose fetch fails: in the batch `["A", "C", "C"]` on a
new cache over `svcAB`, with the goroutines run one after the other, the only reading of the
clock is the one that stamps the entry of `"A"`, so every reading falls within `maxAge` of the
stored entries, and the price service is called twice for `"C"`. -/
theorem GetPricesFor_failed_duplicate :
    (finalState (NewTransparentCache svcAB 5) world0 ["A", "C", "C"]
      (seqSched [])).shared.world.ticks = 1 ∧
    (∀ m, m < (finalState (NewTransparentCache svcAB 5) world0 ["A", "C", "C"]
        (seqSched [])).shared.world.ticks →
      ∀ n, n ≤ m → world0.ticks ≤ n → Sub (world0.clock m) (world0.clock n) < 5) ∧
    callsFor "C" (callsSince world0
      (finalState (NewTransparentCache svcAB 5) world0 ["A", "C", "C"] (seqSched []))) = 2 ∧
    ¬ callsFor "C" (callsSince world0
      (finalState (NewTransparentCache svcAB 5) world0 ["A", "C", "C"] (seqSched []))) ≤ 1 := by
  decide

/-- C11, amended (duplicates): over a price service that always answers `10` for `"A"` and
`20` for `"B"`, a call of `GetPricesFor("A", "B", "A")` on a new cache with `maxAge` five
seconds that returns, returns `[10, 20, 10]` and a nil error, whatever the interleaving of the
goroutines under which it returns.  In general, on a new cache, when the goroutines run one
after the other, in any order, and every reading of the clock made during the batch falls
within `maxAge` of the earlier readings of the batch, the price service answers with success
at most once per item code; and when `GetPricesFor` returns a nil error the price service is
called at most once per item code and the positions that hold the same item code receive the
same price.  (An item code whose fetch fails is fetched again at its next occurrence.) -/
theorem GetPricesFor_duplicates (svc : PriceService) (w : World) :
    ((∀ calls, svc.GetPriceFor calls "A" = (10, none)) →
      (∀ calls, svc.GetPriceFor calls "B" = (20, none)) →
      ∀ sched : List Nat,
        returnsUnder (NewTransparentCache svc 5000000000) w ["A", "B", "A"] sched →
        (GetPricesFor (NewTransparentCache svc 5000000000) w ["A", "B", "A"] sched).prices =
          [10, 20, 10] ∧
        (GetPricesFor (NewTransparentCache svc 5000000000) w ["A", "B", "A"] sched).err = none) ∧
    ∀ (maxAge : Duration) (itemCodes : List String) (order : List Nat),
      (∀ m, m < (finalState (NewTransparentCache svc maxAge) w itemCodes
          (seqSched order)).shared.world.ticks →
        ∀ n, n ≤ m → w.ticks ≤ n → Sub (w.clock m) (w.clock n) < maxAge) →
      (∀ k, successesFor k (callsSince w
        (finalState (NewTransparentCache svc maxAge) w itemCodes (seqSched order))) ≤ 1) ∧
      ((GetPricesFor (NewTransparentCache svc maxAge) w itemCodes (seqSched order)).err = none →
        (∀ k, callsFor k (callsSince w
          (finalState (NewTransparentCache svc maxAge) w itemCodes (seqSched order))) ≤ 1) ∧
        ∀ (i j : Nat) (code : String), itemCodes[i]? = some code → itemCodes[j]? = some code →
          (GetPricesFor (NewTransparentCache svc maxAge) w itemCodes
            (seqSched order)).prices[i]? =
          (GetPricesFor (NewTransparentCache svc maxAge) w itemCodes
            (seqSched order)).prices[j]?) := by
  constructor
  · intro hA hB sched _
    have hsvc : ∀ calls code, code ∈ ["A", "B", "A"] →
        svc.GetPriceFor calls code = ((fun k => if k = "A" then 10 else 20) code, none) := by
      intro calls code hmem
      simp only [List.mem_cons, List.mem_singleton, List.not_mem_nil, or_false] at hmem
      rcases hmem with h | h | h <;> subst h
      · exact hA calls
      · exact hB calls
      · exact hA calls
    obtain ⟨h1, h2⟩ := GetPricesFor_deterministic svc 5000000000 w ["A", "B", "A"]
      (fun k => if k = "A" then 10 else 20) sched hsvc
    exact ⟨by rw [h2]; decide, h1⟩
  · intro maxAge itemCodes order hwin
    exact GetPricesFor_sequential svc maxAge w itemCodes order
      (fun n m h1 h2 h3 => hwin m h3 n h2 h1)

theorem GetPricesFor_duplicates_witness :
    (∀ calls, svcAB.GetPriceFor calls "A" = (10, none)) ∧
    (∀ calls, svcAB.GetPriceFor calls "B" = (20, none)) ∧
    returnsUnder (NewTransparentCache svcAB 5000000000) world0 ["A", "B", "A"]
      ([2, 0, 1, 2, 0] ++ drain 3) ∧
    (GetPricesFor (NewTransparentCache svcAB 5000000000) world0 ["A", "B", "A"]
      ([2, 0, 1, 2, 0] ++ drain 3)).prices = [10, 20, 10] ∧
    (∀ m, m < (finalState (NewTransparentCache svcAB 5) world0 ["A", "B", "A"]
        (seqSched [1])).shared.world.ticks →
      ∀ n, n ≤ m → world0.ticks ≤ n → Sub (world0.clock m) (world0.clock n) < 5) ∧
    (GetPricesFor (NewTransparentCache svcAB 5) world0 ["A", "B", "A"] (seqSched [1])).err =
      none ∧
    (∀ k, callsFor k (callsSince world0
      (finalState (NewTransparentCache svcAB 5) world0 ["A", "B", "A"] (seqSched [1]))) ≤ 1) :=
  have hret : returnsUnder (NewTransparentCache svcAB 5000000000) world0 ["A", "B", "A"]
      ([2, 0, 1, 2, 0] ++ drain 3) := by
    unfold returnsUnder
    decide
  ⟨fun _ => rfl, fun _ => rfl, hret,
    ((GetPricesFor_duplicates svcAB world0).1 (fun _ => rfl) (fun _ => rfl)
      ([2, 0, 1, 2, 0] ++ drain 3) hret).1,
    by decide, by decide,
    (((GetPricesFor_duplicates svcAB world0).2 5 ["A", "B", "A"] [1] (by decide)).2
      (by decide)).1⟩

/-! ## The shared error variable and the mutexes -/

theorem unitStep_holds (code : String) (i : Nat) (sh : Shared) (ph : Phase) (m : Nat)
    (hold : ∀ m', ph.holds = some m' → m' < sh.mutexes)
    (h : (unitStep code i sh ph).2.holds = some m) : m < (unitStep code i sh ph).1.mutexes := by
  cases ph <;> simp only [unitStep] at h ⊢ <;> (try split at h) <;>
    simp_all [Phase.holds]

theorem unitStep_mutexes (code : String) (i : Nat) (sh : Shared) (ph : Phase) :
    sh.mutexes ≤ (unitStep code i sh ph).1.mutexes := by
  cases ph <;> simp only [unitStep] <;> (try split) <;> simp

/-- The mutex that lines 50-52 create is held by no goroutine, so locking it never waits:
every mutex held has a number below the number the next mutex will get. -/
theorem held_lt_mutexes (c : TransparentCache) (w : World) (ids : List String)
    (sched : List Nat) (i : Nat) (m : Nat)
    (h : ((run ids (initBatch c w ids) sched).phases[i]?).bind Phase.holds = some m) :
    m < (run ids (initBatch c w ids) sched).shared.mutexes := by
  have key : ∀ s : BatchState,
      (∀ (j m' : Nat), (s.phases[j]?).bind Phase.holds = some m' → m' < s.shared.mutexes) →
      ∀ (k j m' : Nat), ((step ids s k).phases[j]?).bind Phase.holds = some m' →
        m' < (step ids s k).shared.mutexes := by
    intro s hs k j m' hj
    rcases step_cases ids s k with h' | ⟨code, ph, -, hp, h'⟩
    · rw [h'] at hj ⊢; exact hs j m' hj
    · rw [h'] at hj ⊢
      have hk : k < s.phases.length := (List.getElem?_eq_some.mp hp).1
      by_cases hjk : j = k
      · subst hjk
        simp only [List.getElem?_set_self hk, Option.some_bind] at hj
        exact unitStep_holds code j s.shared ph m'
          (fun m'' hm => hs j m'' (by rw [hp]; exact hm)) hj
      · simp only [List.getElem?_set_ne (Ne.symm hjk)] at hj
        exact lt_of_lt_of_le (hs j m' hj) (unitStep_mutexes code k s.shared ph)
  have hall := run_induction ids
    (fun s => ∀ (j m' : Nat), (s.phases[j]?).bind Phase.holds = some m' →
      m' < s.shared.mutexes)
    (fun s k hs => key s hs k) sched (initBatch c w ids) (by
      intro j m' hj
      simp only [initBatch, List.getElem?_replicate] at hj
      split at hj <;> simp [Phase.holds] at hj)
  exact hall i m h

/-- C12 (the shared first-error variable), evaluated on a failing input: the batch
`["A", "C"]` on a new cache over `svcAB`, which fails for `"C"`.  Both goroutines read
`err == nil` before either assigns.  After the goroutine of `"C"` has assigned, `err` holds its
error; then the goroutine of `"A"` assigns its nil `innerErr` and the recorded failure is lost:
when all goroutines have finished `err` is nil although the call of `GetPriceFor` of
position `1` failed, and `GetPricesFor` returns a nil error with the prices `[10, 0]`, whose
second element is the zero written by the failed goroutine. -/
theorem GetPricesFor_err_overwritten :
    (run ["A", "C"] (initBatch (NewTransparentCache svcAB 5) world0 ["A", "C"])
      [1, 1, 1, 0, 0, 0, 0, 0, 0, 1]).shared.err =
        some ⟨"getting price from service : unknown item"⟩ ∧
    (run ["A", "C"] (initBatch (NewTransparentCache svcAB 5) world0 ["A", "C"])
      [1, 1, 1, 0, 0, 0, 0, 0, 0, 1, 0]).shared.err = none ∧
    unitReturn (finalState (NewTransparentCache svcAB 5) world0 ["A", "C"]
      [1, 1, 1, 0, 0, 0, 0, 0, 0, 1, 0]) 1 =
        some (0, some ⟨"getting price from service : unknown item"⟩) ∧
    (finalState (NewTransparentCache svcAB 5) world0 ["A", "C"]
      [1, 1, 1, 0, 0, 0, 0, 0, 0, 1, 0]).shared.err = none ∧
    (GetPricesFor (NewTransparentCache svcAB 5) world0 ["A", "C"]
      [1, 1, 1, 0, 0, 0, 0, 0, 0, 1, 0]).err = none ∧
    (GetPricesFor (NewTransparentCache svcAB 5) world0 ["A", "C"]
      [1, 1, 1, 0, 0, 0, 0, 0, 0, 1, 0]).prices = [10, 0] := by
  decide

/-- C13 (mutual exclusion on the map), evaluated on a failing input: the batch
`["A", "B", "A"]` on a new cache over `svcAB`.  After the first two goroutines have each taken
four steps, both hold a mutex and are about to assign to the map, and the two mutexes are
different ones, each created by its own call; the third goroutine then looks the map up
(line 39) without holding any mutex while the two others hold theirs. -/
theorem GetPricesFor_no_mutual_exclusion :
    (run ["A", "B", "A"] (initBatch (NewTransparentCache svcAB 5) world0 ["A", "B", "A"])
      [0, 0, 0, 0, 1, 1, 1, 1]).phases =
        [Phase.storing 10 100 0, Phase.storing 20 101 1, Phase.start] ∧
    ((run ["A", "B", "A"] (initBatch (NewTransparentCache svcAB 5) world0 ["A", "B", "A"])
      [0, 0, 0, 0, 1, 1, 1, 1]).phases.map Phase.holds) = [some 0, some 1, none] ∧
    (run ["A", "B", "A"] (initBatch (NewTransparentCache svcAB 5) world0 ["A", "B", "A"])
      [0, 0, 0, 0, 1, 1, 1, 1, 2]).phases =
        [Phase.storing 10 100 0, Phase.storing 20 101 1, Phase.fetching] := by
  decide

/-! ## Provenance of the entries -/

theorem World.later_refl (w : World) : w.later w :=
  ⟨rfl, le_refl _, ⟨[], by simp⟩, ⟨[], by simp⟩⟩

theorem World.later_tick (w : World) : w.later w.tick :=
  ⟨rfl, Nat.le_succ _, ⟨[], by simp [World.tick]⟩, ⟨[], by simp [World.tick]⟩⟩

theorem World.later_call (w : World) (svc : PriceService) (code : String) :
    w.later (w.call svc code) :=
  ⟨rfl, le_refl _, ⟨_, rfl⟩, ⟨_, rfl⟩⟩

theorem World.later_trans (w1 w2 w3 : World) (h12 : w1.later w2) (h23 : w2.later w3) :
    w1.later w3 := by
  obtain ⟨a1, a2, ⟨l1, a3⟩, ⟨l2, a4⟩⟩ := h12
  obtain ⟨b1, b2, ⟨l3, b3⟩, ⟨l4, b4⟩⟩ := h23
  exact ⟨b1.trans a1, le_trans a2 b2, ⟨l1 ++ l3, by rw [b3, a3, List.append_assoc]⟩,
    ⟨l2 ++ l4, by rw [b4, a4, List.append_assoc]⟩⟩

theorem Logged_later (w w' : World) (h : w.later w') (k : String) (p : Price) (m : Nat)
    (hl : Logged w k p m) : Logged w' k p m := by
  obtain ⟨-, -, ⟨l1, h1⟩, ⟨l2, h2⟩⟩ := h
  obtain ⟨j, hj1, hj2⟩ := hl
  refine ⟨j, ?_, ?_⟩
  · rw [h1, List.getElem?_append_left (List.getElem?_eq_some.mp hj1).1]; exact hj1
  · rw [h2, List.getElem?_append_left (List.getElem?_eq_some.mp hj2).1]; exact hj2

theorem Logged_call (w : World) (svc : PriceService) (code : String)
    (hwf : w.callTicks.length = w.calls.length) (hok : (w.answer svc code).2 = none) :
    Logged (w.call svc code) code (w.answer svc code).1 w.ticks := by
  refine ⟨w.calls.length, ?_, ?_⟩
  · simp [World.call, hok]
  · simp [World.call, ← hwf]

theorem Provenance_later (c c' : TransparentCache) (w w' : World) (h : w.later w')
    (hp : c'.prices = c.prices) (hprov : Provenance c w) : Provenance c' w' := by
  intro k e he
  rw [hp] at he
  obtain ⟨m, n, h1, h2, h3, h4⟩ := hprov k e he
  exact ⟨m, n, Logged_later w w' h k e.price m h1, h2, lt_of_lt_of_le h3 h.2.1,
    by rw [h4, h.1]⟩

theorem atFetch_later (c : TransparentCache) (w : World) (code : String) :
    w.later (atFetch c w code) := by
  unfold atFetch
  cases c.prices code
  · exact World.later_refl w
  · exact World.later_tick w

theorem atFetch_wf (c : TransparentCache) (w : World) (code : String)
    (hwf : w.callTicks.length = w.calls.length) :
    (atFetch c w code).callTicks.length = (atFetch c w code).calls.length := by
  unfold atFetch
  cases c.prices code <;> exact hwf

/-- A call of `GetPriceFor` keeps the provenance of the entries. -/
theorem Provenance_GetPriceFor (c : TransparentCache) (w : World) (code : String)
    (hwf : w.callTicks.length = w.calls.length) (hprov : Provenance c w) :
    (GetPriceFor c w code).world.callTicks.length = (GetPriceFor c w code).world.calls.length ∧
    Provenance (GetPriceFor c w code).cache (GetPriceFor c w code).world := by
  have hwf' := atFetch_wf c w code hwf
  have hl := atFetch_later c w code
  rcases GetPriceFor_cases c w code with ⟨e, he, -, hout⟩ | ⟨-, x, hx, hout⟩ | ⟨-, hx, hout⟩
  · rw [hout]
    exact ⟨hwf, Provenance_later c c w w.tick (World.later_tick w) rfl hprov⟩
  · rw [hout]
    refine ⟨by simp [World.call, hwf'], ?_⟩
    exact Provenance_later c c w _
      (World.later_trans _ _ _ hl (World.later_call _ _ _)) rfl hprov
  · rw [hout]
    refine ⟨by simp [World.call, World.tick, hwf'], ?_⟩
    have hl2 : w.later ((atFetch c w code).call c.actualPriceService code).tick :=
      World.later_trans _ _ _ hl
        (World.later_trans _ _ _ (World.later_call _ _ _) (World.later_tick _))
    intro k e he
    by_cases hk : k = code
    · subst hk
      simp only [mapSet_same, Option.some.injEq] at he
      subst he
      exact ⟨(atFetch c w k).ticks, (atFetch c w k).ticks,
        Logged_later _ _ (World.later_tick _) _ _ _ (Logged_call _ _ _ hwf' hx),
        le_refl _, Nat.lt_succ_self _, rfl⟩
    · simp only [mapSet_other _ _ _ _ hk] at he
      obtain ⟨m, n, h1, h2, h3, h4⟩ := hprov k e he
      exact ⟨m, n, Logged_later w _ hl2 k e.price m h1, h2, lt_of_lt_of_le h3 hl2.2.1,
        by rw [h4, hl2.1]⟩

theorem unitStep_later (code : String) (i : Nat) (sh : Shared) (ph : Phase) :
    sh.world.later (unitStep code i sh ph).1.world := by
  cases ph <;> simp only [unitStep] <;> (try split) <;>
    first
    | exact World.later_refl _
    | exact World.later_tick _
    | exact World.later_call _ _ _

theorem unitStep_wf (code : String) (i : Nat) (sh : Shared) (ph : Phase)
    (hwf : sh.world.callTicks.length = sh.world.calls.length) :
    (unitStep code i sh ph).1.world.callTicks.length =
      (unitStep code i sh ph).1.world.calls.length := by
  cases ph <;> simp only [unitStep] <;> (try split) <;> simp [World.call, World.tick, hwf]

theorem unitStep_to_storing (code : String) (i : Nat) (sh : Shared) (ph : Phase) (p : Price)
    (t : Time) (mu : Nat) (h : (unitStep code i sh ph).2 = Phase.storing p t mu) :
    ph = Phase.stamping p mu ∧ t = sh.world.now ∧
      (unitStep code i sh ph).1.world = sh.world.tick := by
  cases ph <;> simp only [unitStep] at h ⊢ <;> (try split at h) <;> simp_all

theorem ProvInv_step (ids : List String) (s : BatchState) (i : Nat) (h : ProvInv ids s) :
    ProvInv ids (step ids s i) := by
  rcases step_cases ids s i with h' | ⟨code, ph, hc, hp, h'⟩
  · rw [h']; exact h
  rw [h']
  have hi : i < s.phases.length := (List.getElem?_eq_some.mp hp).1
  have hl := unitStep_later code i s.shared ph
  have hwf' := unitStep_wf code i s.shared ph h.wf
  refine ⟨hwf', ?_, ?_, ?_⟩
  · -- the entries
    rcases unitStep_prices code i s.shared ph with ⟨-, hpr⟩ | ⟨p, t, mu, hst, hpr⟩
    · exact Provenance_later s.shared.cache _ _ _ hl hpr h.entries
    · intro k e he
      by_cases hk : k = code
      · subst hk
        simp only [hpr, mapSet_same, Option.some.injEq] at he
        subst he
        obtain ⟨m, n, h1, h2, h3, h4⟩ := h.storing i k p t mu hc (by rw [hp, hst])
        exact ⟨m, n, Logged_later _ _ hl _ _ _ h1, h2, lt_of_lt_of_le h3 hl.2.1,
          by rw [h4, hl.1]⟩
      · simp only [hpr, mapSet_other _ _ _ _ hk] at he
        obtain ⟨m, n, h1, h2, h3, h4⟩ := h.entries k e he
        exact ⟨m, n, Logged_later _ _ hl _ _ _ h1, h2, lt_of_lt_of_le h3 hl.2.1,
          by rw [h4, hl.1]⟩
  · -- the prices not stored yet
    intro j code' p hcj hj
    have hold : (s.phases[j]?).bind Phase.pending = some p →
        ∃ m, Logged (unitStep code i s.shared ph).1.world code' p m ∧
          m ≤ (unitStep code i s.shared ph).1.world.ticks := by
      intro hpj
      obtain ⟨m, h1, h2⟩ := h.pending j code' p hcj hpj
      exact ⟨m, Logged_later _ _ hl _ _ _ h1, le_trans h2 hl.2.1⟩
    by_cases hji : j = i
    · subst hji
      rw [hc] at hcj
      cases hcj
      simp only [List.getElem?_set_self hi, Option.some_bind] at hj
      rcases unitStep_pending code j s.shared ph p hj with hr | ⟨hf, h1, h2⟩
      · exact hold (by rw [hp]; exact hr)
      · subst hf
        have hlog := Logged_call s.shared.world s.shared.cache.actualPriceService code h.wf h2
        rw [h1] at hlog
        simp only [unitStep, h2]
        exact ⟨s.shared.world.ticks, hlog, le_refl _⟩
    · simp only [List.getElem?_set_ne (Ne.symm hji)] at hj
      exact hold hj
  · -- the times about to be stored
    intro j code' p t mu hcj hj
    by_cases hji : j = i
    · subst hji
      rw [hc] at hcj
      cases hcj
      simp only [List.getElem?_set_self hi, Option.some.injEq] at hj
      obtain ⟨hst, ht, hw⟩ := unitStep_to_storing code j s.shared ph p t mu hj
      obtain ⟨m, h1, h2⟩ := h.pending j code p hc (by rw [hp, hst]; rfl)
      rw [hw]
      exact ⟨m, s.shared.world.ticks, Logged_later _ _ (World.later_tick _) _ _ _ h1, h2,
        Nat.lt_succ_self _, ht⟩
    · simp only [List.getElem?_set_ne (Ne.symm hji)] at hj
      obtain ⟨m, n, h1, h2, h3, h4⟩ := h.storing j code' p t mu hcj hj
      exact ⟨m, n, Logged_later _ _ hl _ _ _ h1, h2, lt_of_lt_of_le h3 hl.2.1,
        by rw [h4, hl.1]⟩

theorem ProvInv_init (c : TransparentCache) (w : World) (ids : List String)
    (hwf : w.callTicks.length = w.calls.length) (hprov : Provenance c w) :
    ProvInv ids (initBatch c w ids) where
  wf := hwf
  entries := hprov
  pending := by
    intro i code p _ h
    simp only [initBatch, List.getElem?_replicate] at h
    split at h <;> simp [Phase.pending] at h
  storing := by
    intro i code p t mu _ h
    simp only [initBatch, List.getElem?_replicate] at h
    split at h <;> simp at h

/-- A call of `GetPricesFor` keeps the provenance of the entries, however its goroutines
are interleaved. -/
theorem Provenance_GetPricesFor (c : TransparentCache) (w : World) (ids : List String)
    (sched : List Nat) (hwf : w.callTicks.length = w.calls.length) (hprov : Provenance c w) :
    (GetPricesFor c w ids sched).world.callTicks.length =
      (GetPricesFor c w ids sched).world.calls.length ∧
    Provenance (GetPricesFor c w ids sched).cache (GetPricesFor c w ids sched).world := by
  have h : ProvInv ids (finalState c w ids sched) :=
    run_induction ids (ProvInv ids) (fun s i h => ProvInv_step ids s i h) _ _
      (run_induction ids (ProvInv ids) (fun s i h => ProvInv_step ids s i h) _ _
        (ProvInv_init c w ids hwf hprov))
  rw [GetPricesFor_cache, GetPricesFor_world]
  exact ⟨h.wf, h.entries⟩

theorem Reachable_provenance (svc : PriceService) (maxAge : Duration) (c : TransparentCache)
    (w : World) (h : Reachable svc maxAge c w) :
    w.callTicks.length = w.calls.length ∧ Provenance c w := by
  induction h with
  | new w hwf =>
    refine ⟨hwf, ?_⟩
    intro k e he
    simp [NewTransparentCache] at he
  | elapse c w _ ih =>
    exact ⟨ih.1, Provenance_later c c w w.tick (World.later_tick w) rfl ih.2⟩
  | getPriceFor c w code _ ih => exact Provenance_GetPriceFor c w code ih.1 ih.2
  | getPricesFor c w ids sched _ ih => exact Provenance_GetPricesFor c w ids sched ih.1 ih.2

/-- C14 as stated fails: after `GetPricesFor("A", "B")` on a new cache over `svcAB`, in which
the goroutine of `"A"` calls the price service, then the goroutine of `"B"` fetches and stores
its price with the time `100` it reads, then the goroutine of `"A"` reads the time `101` and
stores, the entry of `"A"` is `(10, 101)`; the only call of the price service for `"A"` was made
before the reading that gave `100`, so it took place earlier than the entry's time `101`. -/
theorem entry_time_after_call :
    Reachable svcAB 5
      (GetPricesFor (NewTransparentCache svcAB 5) world0 ["A", "B"]
        [0, 0, 1, 1, 1, 1, 1, 0, 0, 0]).cache
      (GetPricesFor (NewTransparentCache svcAB 5) world0 ["A", "B"]
        [0, 0, 1, 1, 1, 1, 1, 0, 0, 0]).world ∧
    (∀ a b, a ≤ b → world0.clock a ≤ world0.clock b) ∧
    (GetPricesFor (NewTransparentCache svcAB 5) world0 ["A", "B"]
      [0, 0, 1, 1, 1, 1, 1, 0, 0, 0]).cache.prices "A" = some ⟨101, 10⟩ ∧
    (GetPricesFor (NewTransparentCache svcAB 5) world0 ["A", "B"]
      [0, 0, 1, 1, 1, 1, 1, 0, 0, 0]).world.calls = [⟨"A", 10, none⟩, ⟨"B", 20, none⟩] ∧
    (GetPricesFor (NewTransparentCache svcAB 5) world0 ["A", "B"]
      [0, 0, 1, 1, 1, 1, 1, 0, 0, 0]).world.callTicks = [0, 0] ∧
    (GetPricesFor (NewTransparentCache svcAB 5) world0 ["A", "B"]
      [0, 0, 1, 1, 1, 1, 1, 0, 0, 0]).world.clock 0 = 100 ∧
    ¬ ∃ (j m : Nat),
      (GetPricesFor (NewTransparentCache svcAB 5) world0 ["A", "B"]
        [0, 0, 1, 1, 1, 1, 1, 0, 0, 0]).world.calls[j]? = some ⟨"A", 10, none⟩ ∧
      (GetPricesFor (NewTransparentCache svcAB 5) world0 ["A", "B"]
        [0, 0, 1, 1, 1, 1, 1, 0, 0, 0]).world.callTicks[j]? = some m ∧
      (101 : Time) ≤ (GetPricesFor (NewTransparentCache svcAB 5) world0 ["A", "B"]
        [0, 0, 1, 1, 1, 1, 1, 0, 0, 0]).world.clock m := by
  have hcalls : (GetPricesFor (NewTransparentCache svcAB 5) world0 ["A", "B"]
      [0, 0, 1, 1, 1, 1, 1, 0, 0, 0]).world.calls = [⟨"A", 10, none⟩, ⟨"B", 20, none⟩] := by
    decide
  have hticks : (GetPricesFor (NewTransparentCache svcAB 5) world0 ["A", "B"]
      [0, 0, 1, 1, 1, 1, 1, 0, 0, 0]).world.callTicks = [0, 0] := by decide
  have hclock : (GetPricesFor (NewTransparentCache svcAB 5) world0 ["A", "B"]
      [0, 0, 1, 1, 1, 1, 1, 0, 0, 0]).world.clock 0 = 100 := by decide
  refine ⟨Reachable.getPricesFor _ _ _ _ (Reachable.new world0 rfl), ?_, by decide, hcalls,
    hticks, hclock, ?_⟩
  · intro a b hab
    show (100 : Int) + a ≤ 100 + b
    omega
  · rintro ⟨j, m, hj, hm, hle⟩
    rw [hcalls] at hj
    rw [hticks] at hm
    match j, hj, hm with
    | 0, _, hm =>
      simp only [List.getElem?_cons_zero, Option.some.injEq] at hm
      subst hm
      rw [hclock] at hle
      exact absurd hle (by decide)
    | 1, hj, _ => simp at hj
    | (j + 2), hj, _ => simp at hj

/-- C14, amended (provenance of the entries): in every state reachable from
`NewTransparentCache` by calls of `GetPriceFor` and `GetPricesFor`, under a monotone clock,
every entry `(p, observedAt)` of `prices` for an item code `k` is such that `p` was answered
with a nil error by a call of the price service for `k`, and that call was made before the
reading of the clock that gave `observedAt` was taken: the first reading taken after the call
is at most `observedAt`, so the call took place no later than `observedAt`. -/
theorem entries_provenance (svc : PriceService) (maxAge : Duration) (c : TransparentCache)
    (w : World) (hr : Reachable svc maxAge c w)
    (hmono : ∀ a b, a ≤ b → w.clock a ≤ w.clock b)
    (k : String) (e : CachedPrice) (he : c.prices k = some e) :
    ∃ (j m n : Nat), w.calls[j]? = some ⟨k, e.price, none⟩ ∧ w.callTicks[j]? = some m ∧
      m ≤ n ∧ n < w.ticks ∧ e.time = w.clock n ∧ w.clock m ≤ e.time := by
  obtain ⟨m, n, ⟨j, hj1, hj2⟩, h2, h3, h4⟩ := (Reachable_provenance svc maxAge c w hr).2 k e he
  exact ⟨j, m, n, hj1, hj2, h2, h3, h4, by rw [h4]; exact hmono m n h2⟩

theorem entries_provenance_witness :
    Reachable svcAB 5 (GetPriceFor (NewTransparentCache svcAB 5) world0 "A").cache
      (GetPriceFor (NewTransparentCache svcAB 5) world0 "A").world ∧
    (GetPriceFor (NewTransparentCache svcAB 5) world0 "A").cache.prices "A" =
      some ⟨100, 10⟩ ∧
    ∃ (j m n : Nat),
      (GetPriceFor (NewTransparentCache svcAB 5) world0 "A").world.calls[j]? =
        some ⟨"A", 10, none⟩ ∧
      (GetPriceFor (NewTransparentCache svcAB 5) world0 "A").world.callTicks[j]? = some m ∧
      m ≤ n ∧ n < (GetPriceFor (NewTransparentCache svcAB 5) world0 "A").world.ticks ∧
      (100 : Time) = (GetPriceFor (NewTransparentCache svcAB 5) world0 "A").world.clock n ∧
      (GetPriceFor (NewTransparentCache svcAB 5) world0 "A").world.clock m ≤ 100 :=
  ⟨Reachable.getPriceFor _ _ _ (Reachable.new world0 rfl), by decide,
    entries_provenance svcAB 5 _ _ (Reachable.getPriceFor _ _ "A" (Reachable.new world0 rfl))
      (fun a b hab => by
        show (100 : Int) + a ≤ 100 + b
        omega)
      "A" ⟨100, 10⟩ (by decide)⟩

/-! ## A stale entry and no entry -/

theorem mapSet_mapDelete (m : String → Option CachedPrice) (k : String) (v : CachedPrice) :
    mapSet (mapDelete m k) k v = mapSet m k v := by
  funext k'
  by_cases h : k' = k <;> simp [mapSet, mapDelete, h]

/-- C15 (a stale entry behaves like no entry): let `itemCode` have an entry `e` of age at least
`maxAge` in cache `c`, and let the cache `c` without that entry run `GetPriceFor(itemCode)`
with the price service in the same state (world `w2`).  Both calls make the same call of the
price service and return the same price and error; when the service fails both return price
`0` and the wrapped error, not the price of `e`, and `e` is still the entry of `itemCode` in
`c`; when the service succeeds and the clock reads the same at the store in both runs, the two
resulting maps are equal. -/
theorem GetPriceFor_stale_as_absent (c : TransparentCache) (w w2 : World) (itemCode : String)
    (e : CachedPrice) (he : c.prices itemCode = some e)
    (hage : c.maxAge ≤ Sub w.now e.time) (hcalls : w2.calls = w.calls) :
    (GetPriceFor c w itemCode).world.calls =
      w.calls ++ [⟨itemCode, (w.answer c.actualPriceService itemCode).1,
        (w.answer c.actualPriceService itemCode).2⟩] ∧
    (GetPriceFor { c with prices := mapDelete c.prices itemCode } w2 itemCode).world.calls =
      w2.calls ++ [⟨itemCode, (w.answer c.actualPriceService itemCode).1,
        (w.answer c.actualPriceService itemCode).2⟩] ∧
    (GetPriceFor { c with prices := mapDelete c.prices itemCode } w2 itemCode).price =
      (GetPriceFor c w itemCode).price ∧
    (GetPriceFor { c with prices := mapDelete c.prices itemCode } w2 itemCode).err =
      (GetPriceFor c w itemCode).err ∧
    (∀ x, (w.answer c.actualPriceService itemCode).2 = some x →
      (GetPriceFor c w itemCode).price = 0 ∧
      (GetPriceFor c w itemCode).err = some (wrapErr x) ∧
      (GetPriceFor c w itemCode).cache.prices itemCode = some e) ∧
    ((w.answer c.actualPriceService itemCode).2 = none → w2.now = w.tick.now →
      (GetPriceFor { c with prices := mapDelete c.prices itemCode } w2 itemCode).cache.prices =
        (GetPriceFor c w itemCode).cache.prices) := by
  have hnf : noFresh c w itemCode := Or.inr ⟨e, he, hage⟩
  have hnf2 : noFresh { c with prices := mapDelete c.prices itemCode } w2 itemCode :=
    Or.inl (by simp [mapDelete])
  have hat : atFetch c w itemCode = w.tick := by simp [atFetch, he]
  have hat2 : atFetch { c with prices := mapDelete c.prices itemCode } w2 itemCode = w2 := by
    simp [atFetch, mapDelete]
  have hans : w2.answer c.actualPriceService itemCode =
      w.answer c.actualPriceService itemCode := by
    simp [World.answer, hcalls]
  have hanst : w.tick.answer c.actualPriceService itemCode =
      w.answer c.actualPriceService itemCode := rfl
  have hfail2 : ∀ x, (w.answer c.actualPriceService itemCode).2 = some x →
      (w2.answer { c with prices := mapDelete c.prices itemCode }.actualPriceService
        itemCode).2 = some x := by
    intro x hx
    show (w2.answer c.actualPriceService itemCode).2 = _
    rw [hans, hx]
  have hok2 : (w.answer c.actualPriceService itemCode).2 = none →
      (w2.answer { c with prices := mapDelete c.prices itemCode }.actualPriceService
        itemCode).2 = none := by
    intro hx
    show (w2.answer c.actualPriceService itemCode).2 = _
    rw [hans, hx]
  rw [GetPriceFor_noFresh c w itemCode hnf, GetPriceFor_noFresh _ w2 itemCode hnf2, hat, hat2]
  refine ⟨?_, ?_, ?_, ?_, ?_, ?_⟩
  · rw [fetchAndStore_calls]; rfl
  · rw [fetchAndStore_calls]
    show w2.calls ++ [⟨itemCode, (w2.answer c.actualPriceService itemCode).1,
      (w2.answer c.actualPriceService itemCode).2⟩] = _
    rw [hans]
  · cases hx : (w.answer c.actualPriceService itemCode).2 with
    | some x =>
      rw [fetchAndStore_fail c w.tick itemCode x hx,
        fetchAndStore_fail _ w2 itemCode x (hfail2 x hx)]
    | none =>
      rw [fetchAndStore_ok c w.tick itemCode hx,
        fetchAndStore_ok _ w2 itemCode (hok2 hx)]
      show (w2.answer c.actualPriceService itemCode).1 =
        (w.tick.answer c.actualPriceService itemCode).1
      rw [hans, hanst]
  · cases hx : (w.answer c.actualPriceService itemCode).2 with
    | some x =>
      rw [fetchAndStore_fail c w.tick itemCode x hx,
        fetchAndStore_fail _ w2 itemCode x (hfail2 x hx)]
    | none =>
      rw [fetchAndStore_ok c w.tick itemCode hx,
        fetchAndStore_ok _ w2 itemCode (hok2 hx)]
  · intro x hx
    rw [fetchAndStore_fail c w.tick itemCode x hx]
    exact ⟨rfl, rfl, he⟩
  · intro hx hnow
    rw [fetchAndStore_ok c w.tick itemCode hx,
      fetchAndStore_ok _ w2 itemCode (hok2 hx)]
    show mapSet (mapDelete c.prices itemCode) itemCode
        ⟨w2.now, (w2.answer c.actualPriceService itemCode).1⟩ =
      mapSet c.prices itemCode ⟨w.tick.now, (w.tick.answer c.actualPriceService itemCode).1⟩
    rw [mapSet_mapDelete, hans, hnow, hanst]

theorem GetPriceFor_stale_as_absent_witness :
    cacheStale.prices "C" = some ⟨90, 7⟩ ∧ cacheStale.maxAge ≤ Sub world0.now 90 ∧
    (GetPriceFor { cacheStale with prices := mapDelete cacheStale.prices "C" }
      world0.tick "C").err = (GetPriceFor cacheStale world0 "C").err ∧
    (GetPriceFor cacheStale world0 "C").err =
      some ⟨"getting price from service : unknown item"⟩ ∧
    (GetPriceFor cacheStale world0 "C").cache.prices "C" = some ⟨90, 7⟩ ∧
    (GetPriceFor { cacheStale with prices := mapDelete cacheStale.prices "A" }
      world0.tick "A").cache.prices = (GetPriceFor cacheStale world0 "A").cache.prices :=
  ⟨by decide, by decide,
    (GetPriceFor_stale_as_absent cacheStale world0 world0.tick "C" ⟨90, 7⟩ (by decide)
      (by decide) rfl).2.2.2.1,
    ((GetPriceFor_stale_as_absent cacheStale world0 world0.tick "C" ⟨90, 7⟩ (by decide)
      (by decide) rfl).2.2.2.2.1 ⟨"unknown item"⟩ (by decide)).2.1,
    ((GetPriceFor_stale_as_absent cacheStale world0 world0.tick "C" ⟨90, 7⟩ (by decide)
      (by decide) rfl).2.2.2.2.1 ⟨"unknown item"⟩ (by decide)).2.2,
    (GetPriceFor_stale_as_absent cacheStale world0 world0.tick "A" ⟨90, 7⟩ (by decide)
      (by decide) rfl).2.2.2.2.2 (by decide) rfl⟩

/-! ## Entries are kept; a non-positive maxAge -/

theorem mapSet_isSome (m : String → Option CachedPrice) (k k' : String) (v : CachedPrice)
    (h : (m k').isSome = true) : (mapSet m k v k').isSome = true := by
  by_cases hk : k' = k <;> simp [mapSet, hk, h]

theorem fetchAndStore_keeps (c : TransparentCache) (w : World) (code k : String)
    (h : (c.prices k).isSome = true) :
    ((fetchAndStore c w code).cache.prices k).isSome = true := by
  simp only [fetchAndStore]
  split
  · exact h
  · exact mapSet_isSome _ _ _ _ h

theorem GetPriceFor_keeps (c : TransparentCache) (w : World) (code k : String)
    (h : (c.prices k).isSome = true) :
    ((GetPriceFor c w code).cache.prices k).isSome = true := by
  unfold GetPriceFor
  split
  · split
    · exact h
    · exact fetchAndStore_keeps _ _ _ _ h
  · exact fetchAndStore_keeps _ _ _ _ h

theorem unitStep_keeps (code : String) (i : Nat) (sh : Shared) (ph : Phase) (k : String)
    (h : (sh.cache.prices k).isSome = true) :
    ((unitStep code i sh ph).1.cache.prices k).isSome = true := by
  rcases unitStep_prices code i sh ph with ⟨-, hpr⟩ | ⟨p, t, m, -, hpr⟩ <;> rw [hpr]
  · exact h
  · exact mapSet_isSome _ _ _ _ h

theorem run_keeps (ids : List String) (sched : List Nat) (k : String) (s : BatchState)
    (h : (s.shared.cache.prices k).isSome = true) :
    ((run ids s sched).shared.cache.prices k).isSome = true :=
  run_induction ids (fun t => (t.shared.cache.prices k).isSome = true)
    (fun t i ht => by
      rcases step_cases ids t i with h' | ⟨code, ph, -, -, h'⟩ <;> rw [h']
      · exact ht
      · exact unitStep_keeps code i t.shared ph k ht) sched s h

/-- C16 (entries are never deleted, the configuration never changes): after a call of
`GetPriceFor`, and after a call of `GetPricesFor` however its goroutines are interleaved,
whether the call succeeds or fails, every item code that had an entry still has one, and
`maxAge` and the price service of the cache are those of before the call. -/
theorem entries_kept (c : TransparentCache) (w : World) :
    (∀ itemCode : String,
      (∀ k, (c.prices k).isSome = true →
        ((GetPriceFor c w itemCode).cache.prices k).isSome = true) ∧
      (GetPriceFor c w itemCode).cache.maxAge = c.maxAge ∧
      (GetPriceFor c w itemCode).cache.actualPriceService = c.actualPriceService) ∧
    (∀ (itemCodes : List String) (sched : List Nat),
      (∀ k, (c.prices k).isSome = true →
        ((GetPricesFor c w itemCodes sched).cache.prices k).isSome = true) ∧
      (GetPricesFor c w itemCodes sched).cache.maxAge = c.maxAge ∧
      (GetPricesFor c w itemCodes sched).cache.actualPriceService = c.actualPriceService) := by
  constructor
  · intro itemCode
    exact ⟨fun k h => GetPriceFor_keeps c w itemCode k h, GetPriceFor_maxAge c w itemCode,
      GetPriceFor_service c w itemCode⟩
  · intro itemCodes sched
    have hinv := Inv_final c w itemCodes sched
    rw [GetPricesFor_cache]
    refine ⟨fun k h => ?_, hinv.maxAge, hinv.service⟩
    unfold finalState
    exact run_keeps _ _ k _ (run_keeps _ _ k _ h)

/-- C17 (a non-positive `maxAge` disables caching): when `maxAge ≤ 0` and the clock reads no
earlier than the time stored in the entry of `itemCode`, if there is one, `GetPriceFor` calls
the price service, whether or not `itemCode` has an entry, and what it returns is what the
service answered: its price with a nil error, or `0` and the wrapped error; it is not answered
from `prices`. -/
theorem GetPriceFor_no_caching (c : TransparentCache) (w : World) (itemCode : String)
    (hmax : c.maxAge ≤ 0) (hclock : ∀ e, c.prices itemCode = some e → e.time ≤ w.now) :
    (GetPriceFor c w itemCode).world.calls =
      w.calls ++ [⟨itemCode, (w.answer c.actualPriceService itemCode).1,
        (w.answer c.actualPriceService itemCode).2⟩] ∧
    ((w.answer c.actualPriceService itemCode).2 = none →
      (GetPriceFor c w itemCode).price = (w.answer c.actualPriceService itemCode).1 ∧
      (GetPriceFor c w itemCode).err = none) ∧
    (∀ x, (w.answer c.actualPriceService itemCode).2 = some x →
      (GetPriceFor c w itemCode).price = 0 ∧
      (GetPriceFor c w itemCode).err = some (wrapErr x)) := by
  have hnf : noFresh c w itemCode := by
    cases he : c.prices itemCode with
    | none => exact Or.inl he
    | some e =>
      refine Or.inr ⟨e, he, le_trans hmax ?_⟩
      have := hclock e he
      unfold Sub maxDuration minDuration
      split_ifs <;> simp only [Duration, Time] at * <;> omega
  have hans : (atFetch c w itemCode).answer c.actualPriceService itemCode =
      w.answer c.actualPriceService itemCode := by
    simp [World.answer, atFetch_calls]
  rw [GetPriceFor_noFresh c w itemCode hnf]
  refine ⟨by rw [fetchAndStore_calls, atFetch_calls, hans], ?_, ?_⟩
  · intro hx
    rw [fetchAndStore_ok c _ itemCode (by rw [hans]; exact hx), hans]
    exact ⟨rfl, rfl⟩
  · intro x hx
    rw [fetchAndStore_fail c _ itemCode x (by rw [hans]; exact hx)]
    exact ⟨rfl, rfl⟩

theorem GetPriceFor_no_caching_witness :
    cacheNoAge.maxAge ≤ 0 ∧ cacheNoAge.prices "A" = some ⟨100, 7⟩ ∧
    (GetPriceFor cacheNoAge world0 "A").world.calls = [⟨"A", 10, none⟩] ∧
    (GetPriceFor cacheNoAge world0 "A").price = 10 ∧
    (GetPriceFor cacheNoAge world0 "A").err = none :=
  have hclock : ∀ e, cacheNoAge.prices "A" = some e → e.time ≤ world0.now := by
    intro e he
    have h : cacheNoAge.prices "A" = some ⟨100, 7⟩ := by decide
    rw [h] at he
    cases he
    decide
  ⟨by decide, by decide,
    (GetPriceFor_no_caching cacheNoAge world0 "A" (by decide) hclock).1,
    (GetPriceFor_no_caching cacheNoAge world0 "A" (by decide) hclock).2.1 (by decide)⟩

theorem Reachable_config (svc : PriceService) (maxAge : Duration) (c : TransparentCache)
    (w : World) (h : Reachable svc maxAge c w) :
    c.maxAge = maxAge ∧ c.actualPriceService = svc := by
  induction h with
  | new w _ => exact ⟨rfl, rfl⟩
  | elapse c w _ ih => exact ih
  | getPriceFor c w code _ ih =>
    exact ⟨(GetPriceFor_maxAge c w code).trans ih.1, (GetPriceFor_service c w code).trans ih.2⟩
  | getPricesFor c w ids sched _ ih =>
    rw [GetPricesFor_cache]
    exact ⟨(Inv_final c w ids sched).maxAge.trans ih.1,
      (Inv_final c w ids sched).service.trans ih.2⟩

/-- In a state reached from `NewTransparentCache` under a monotone clock, the clock reads no
earlier than any stored time; so with `maxAge ≤ 0` every call of `GetPriceFor` calls the price
service. -/
theorem Reachable_no_caching (svc : PriceService) (maxAge : Duration) (c : TransparentCache)
    (w : World) (h : Reachable svc maxAge c w) (hmax : maxAge ≤ 0)
    (hmono : ∀ a b, a ≤ b → w.clock a ≤ w.clock b) (itemCode : String) :
    (∀ e, c.prices itemCode = some e → e.time ≤ w.now) ∧
    (GetPriceFor c w itemCode).world.calls =
      w.calls ++ [⟨itemCode, (w.answer c.actualPriceService itemCode).1,
        (w.answer c.actualPriceService itemCode).2⟩] := by
  have hstamp : ∀ e, c.prices itemCode = some e → e.time ≤ w.now := by
    intro e he
    obtain ⟨m, n, -, -, h3, h4⟩ := (Reachable_provenance svc maxAge c w h).2 itemCode e he
    rw [h4]
    exact hmono n w.ticks (le_of_lt h3)
  have hnf : noFresh c w itemCode := by
    cases he : c.prices itemCode with
    | none => exact Or.inl he
    | some e =>
      refine Or.inr ⟨e, he, ?_⟩
      rw [(Reachable_config svc maxAge c w h).1]
      refine le_trans hmax ?_
      have := hstamp e he
      unfold Sub maxDuration minDuration
      split_ifs <;> simp only [Duration, Time] at * <;> omega
  refine ⟨hstamp, ?_⟩
  rw [GetPriceFor_noFresh c w itemCode hnf, fetchAndStore_calls, atFetch_calls]
  simp only [World.answer, atFetch_calls]

/-! ## A non-positive maxAge in a batch -/

theorem unitStep_to_checking (code : String) (i : Nat) (sh : Shared) (ph : Phase)
    (cp : CachedPrice) (h : (unitStep code i sh ph).2 = Phase.checking cp) :
    ph = Phase.start ∧ sh.cache.prices code = some cp := by
  cases ph <;> simp only [unitStep] at h <;> (try split at h) <;> simp_all

theorem later_now (w w' : World) (h : w.later w')
    (hmono : ∀ a b, a ≤ b → w.clock a ≤ w.clock b) : w.now ≤ w'.now := by
  unfold World.now
  rw [h.1]
  exact hmono _ _ h.2.1

theorem StampsPast_step (ids : List String) (w0 : World)
    (hmono : ∀ a b, a ≤ b → w0.clock a ≤ w0.clock b) (s : BatchState) (i : Nat)
    (hclock : s.shared.world.clock = w0.clock) (h : StampsPast s) :
    (step ids s i).shared.world.clock = w0.clock ∧ StampsPast (step ids s i) := by
  rcases step_cases ids s i with h' | ⟨code, ph, hc, hp, h'⟩
  · rw [h']; exact ⟨hclock, h⟩
  rw [h']
  have hi : i < s.phases.length := (List.getElem?_eq_some.mp hp).1
  have hl := unitStep_later code i s.shared ph
  have hnow : s.shared.world.now ≤ (unitStep code i s.shared ph).1.world.now :=
    later_now _ _ hl (by rw [hclock]; exact hmono)
  obtain ⟨h1, h2, h3⟩ := h
  refine ⟨hl.1.trans hclock, ?_, ?_, ?_⟩
  · intro k e he
    rcases unitStep_prices code i s.shared ph with ⟨-, hpr⟩ | ⟨p, t, mu, hst, hpr⟩
    · rw [hpr] at he
      exact le_trans (h1 k e he) hnow
    · by_cases hk : k = code
      · subst hk
        simp only [hpr, mapSet_same, Option.some.injEq] at he
        subst he
        exact le_trans (h3 i p t mu (by rw [hp, hst])) hnow
      · simp only [hpr, mapSet_other _ _ _ _ hk] at he
        exact le_trans (h1 k e he) hnow
  · intro j cp hj
    by_cases hji : j = i
    · subst hji
      simp only [List.getElem?_set_self hi, Option.some.injEq] at hj
      obtain ⟨-, hcp⟩ := unitStep_to_checking code j s.shared ph cp hj
      exact le_trans (h1 code cp hcp) hnow
    · simp only [List.getElem?_set_ne (Ne.symm hji)] at hj
      exact le_trans (h2 j cp hj) hnow
  · intro j p t mu hj
    by_cases hji : j = i
    · subst hji
      simp only [List.getElem?_set_self hi, Option.some.injEq] at hj
      obtain ⟨-, ht, -⟩ := unitStep_to_storing code j s.shared ph p t mu hj
      rw [ht]
      exact hnow
    · simp only [List.getElem?_set_ne (Ne.symm hji)] at hj
      exact le_trans (h3 j p t mu hj) hnow

/-- With `maxAge ≤ 0`, a monotone clock and stored times not after the first reading, no
goroutine of a batch is answered from `prices`: whatever the interleaving, a goroutine that
has found an entry goes on to call the price service. -/
theorem batch_no_caching (c : TransparentCache) (w : World) (ids : List String)
    (sched : List Nat) (hmax : c.maxAge ≤ 0)
    (hmono : ∀ a b, a ≤ b → w.clock a ≤ w.clock b)
    (hstamp : ∀ k e, c.prices k = some e → e.time ≤ w.now)
    (i : Nat) (code : String) (cp : CachedPrice)
    (hp : (run ids (initBatch c w ids) sched).phases[i]? = some (Phase.checking cp)) :
    (unitStep code i (run ids (initBatch c w ids) sched).shared (Phase.checking cp)).2 =
      Phase.fetching := by
  have hall := run_induction ids
    (fun s => s.shared.world.clock = w.clock ∧ StampsPast s)
    (fun s k hs => StampsPast_step ids w hmono s k hs.1 hs.2) sched (initBatch c w ids)
    ⟨rfl, hstamp, by
      intro j cp' hj
      simp only [initBatch, List.getElem?_replicate] at hj
      split at hj <;> simp at hj, by
      intro j p t mu hj
      simp only [initBatch, List.getElem?_replicate] at hj
      split at hj <;> simp at hj⟩
  have hinv := Inv_run ids c w sched _ (Inv_init c w ids)
  have hle := hall.2.2.1 i cp hp
  have hage : ¬ Sub (run ids (initBatch c w ids) sched).shared.world.now cp.time <
      (run ids (initBatch c w ids) sched).shared.cache.maxAge := by
    rw [hinv.maxAge, not_lt]
    refine le_trans hmax ?_
    unfold Sub maxDuration minDuration
    split_ifs <;> simp only [Duration, Time] at * <;> omega
  simp only [unitStep, hage, if_false]

/-! ## The variable err as two words -/

/-- The two steps of the assignment of line 81, taken one after the other, leave in `err` the
two words of `innerErr`: without interference the assignment is the one of `unitStep`. -/
theorem stepW_assign (ids : List String) (s : WordState) (i : Nat) (code : String) (p : Price)
    (e : Option GoError) (hc : ids[i]? = some code)
    (hp : s.batch.phases[i]? = some (Phase.setting p e)) (hh : s.half[i]? = some false) :
    (stepW ids (stepW ids s i) i).err = ErrWords.ofErr e ∧
    (stepW ids (stepW ids s i) i).batch.phases = s.batch.phases.set i (Phase.writing p e) ∧
    (stepW ids (stepW ids s i) i).batch.shared = s.batch.shared := by
  have hi : i < s.half.length := (List.getElem?_eq_some.mp hh).1
  have h1 : stepW ids s i =
      { s with err := { s.err with tab := e.isSome }, half := s.half.set i true } := by
    simp [stepW, hc, hp, hh]
  rw [h1]
  simp only [stepW, hc, hp, List.getD_eq_getElem?_getD, List.getElem?_set_self hi,
    Option.getD_some, if_true]
  refine ⟨?_, trivial, trivial⟩
  cases e <;> rfl

/-- C8 (the batch error is the error of a unit), evaluated on a failing input: the batch
`["C", "A"]` on a new cache over `svcAB`, which fails for `"C"`.  Both goroutines find `err`
nil at line 80.  The assignments of line 81 then interleave word by word: the goroutine of
`"A"` writes the type word of its nil `innerErr`, the goroutine of `"C"` writes the two words of
its error, and the goroutine of `"A"` writes its nil data word.  `err` is left with the type
word of an error and no error behind it: `GetPricesFor` returns a non-nil error that is the
error returned by no call of `GetPriceFor`. -/
theorem GetPricesFor_torn_error :
    unitReturn (finalStateW (NewTransparentCache svcAB 5) world0 ["C", "A"]
      [0, 0, 0, 1, 1, 1, 1, 1, 1, 1, 0, 0, 1]).batch 0 =
        some (0, some ⟨"getting price from service : unknown item"⟩) ∧
    unitReturn (finalStateW (NewTransparentCache svcAB 5) world0 ["C", "A"]
      [0, 0, 0, 1, 1, 1, 1, 1, 1, 1, 0, 0, 1]).batch 1 = some (10, none) ∧
    GetPricesForW (NewTransparentCache svcAB 5) world0 ["C", "A"]
      [0, 0, 0, 1, 1, 1, 1, 1, 1, 1, 0, 0, 1] = ([], { tab := true, data := none }) ∧
    ({ tab := true, data := none } : ErrWords) ≠
      ErrWords.ofErr (some ⟨"getting price from service : unknown item"⟩) ∧
    ({ tab := true, data := none } : ErrWords) ≠ ErrWords.ofErr none := by
  decide

end Sample1
